import Mathlib

/-!
# VersionEdit (db/version_edit.h) and TableCache (db/table_cache.h)

A shallow embedding of the `FileMetaData` and `VersionEdit` classes of
`db/version_edit.h` and of the contract of the `TableCache` class of
`db/table_cache.h`.  Member functions become functions on an explicit state:
each mutator takes the object and returns the object after the call.

Conventions.
* `uint64_t` and `SequenceNumber` values are naturals, `int` values are
  integers.  No builder call does arithmetic on them, so they are stored as
  they are passed; the ranges of the C++ types appear as the explicit
  predicate `Op.InRange` where the width matters (the encoding).
* A byte is a natural number; `std::string` and `Slice` are lists of bytes.
* `std::vector` is a list, `push_back` appends at the end.
* `std::set<std::pair<int, uint64_t>>` is the list of its elements in the
  order in which the set enumerates them (ascending for `std::less` on the
  pair); `insert` is the ordered insertion that keeps an equivalent element.
-/

namespace leveldb

/-! ## Data model -/

/-- Modelled from the spec: the class `Slice` is declared in
`hyperleveldb/slice.h`, which is not among the sources; it is the type of the
comparator name, a byte string, and the model is the bytes it views. -/
abbrev Slice := List Nat

/-- The conversion `Slice::ToString`: the bytes the slice views. -/
def Slice.ToString (s : Slice) : List Nat := s

/-- Modelled from the spec: the class `InternalKey` is declared in
`db/dbformat.h`, which is not among the sources.  The spec describes an
internal key as "a user key concatenated with a sequence number and operation
tag", that is a byte string; the model is the byte string the key holds.
A default-constructed key (as in `FileMetaData()`: `smallest(), largest()`)
holds no bytes. -/
structure InternalKey where
  rep_ : List Nat
  deriving DecidableEq, Repr

/-- The value of a default-constructed `InternalKey`. -/
def InternalKey.default : InternalKey := { rep_ := [] }

/-- Modelled from the spec: the typedef `SequenceNumber` of `db/dbformat.h`,
which is not among the sources; the spec: "`last_sequence`: highest
user-operation sequence number committed", an unsigned 64-bit number. -/
abbrev SequenceNumber := Nat

/-- The struct `FileMetaData`. -/
structure FileMetaData where
  refs : Int
  allowed_seeks : Int
  number : Nat
  file_size : Nat
  smallest : InternalKey
  largest : InternalKey
  deriving DecidableEq, Repr

/-- The constructor `FileMetaData()`:
`refs(0), allowed_seeks(1 << 30), number(0), file_size(0), smallest(), largest()`. -/
def FileMetaData.new : FileMetaData :=
  { refs := 0
    allowed_seeks := 1 <<< 30
    number := 0
    file_size := 0
    smallest := InternalKey.default
    largest := InternalKey.default }

/-- The comparison `operator<` of `std::pair<int, uint64_t>`:
`a.first < b.first || (!(b.first < a.first) && a.second < b.second)`. -/
def pairLess (a b : Int × Nat) : Bool :=
  decide (a.1 < b.1) || (!decide (b.1 < a.1) && decide (a.2 < b.2))

/-- The typedef `DeletedFileSet`, `std::set<std::pair<int, uint64_t>>`: the
elements in the order of enumeration. -/
abbrev DeletedFileSet := List (Int × Nat)

/-- The call `std::set::insert` on a `DeletedFileSet`: the element goes before
the first element greater than it; when an element equivalent to it (neither
less than the other) is met first, the set is left as it is. -/
def DeletedFileSet.insert (x : Int × Nat) : DeletedFileSet → DeletedFileSet
  | [] => [x]
  | y :: ys =>
    if pairLess x y then x :: y :: ys
    else if pairLess y x then y :: DeletedFileSet.insert x ys
    else y :: ys

/-- The data members of the class `VersionEdit`. -/
structure VersionEdit where
  comparator_ : List Nat
  log_number_ : Nat
  prev_log_number_ : Nat
  next_file_number_ : Nat
  last_sequence_ : SequenceNumber
  has_comparator_ : Bool
  has_log_number_ : Bool
  has_prev_log_number_ : Bool
  has_next_file_number_ : Bool
  has_last_sequence_ : Bool
  level : Nat
  compact_pointers_ : List (Int × InternalKey)
  deleted_files_ : DeletedFileSet
  deleted_p2files_ : DeletedFileSet
  new_files_ : List (Int × FileMetaData)
  new_l0_files_ : List (Int × FileMetaData)
  deriving DecidableEq, Repr

namespace VersionEdit

/-- Modelled from the spec: `VersionEdit::Clear` is declared in
`db/version_edit.h` and defined in `db/version_edit.cc`, which is not among
the sources.  The spec: "`Clear()`: resets to the empty delta (no fields set,
all collections empty)".  The model unsets the five has-flags and empties the
five collections; the spec does not say what becomes of the scalar values and
of `level`, and the model leaves them as they are. -/
def Clear (e : VersionEdit) : VersionEdit :=
  { e with
    has_comparator_ := false
    has_log_number_ := false
    has_prev_log_number_ := false
    has_next_file_number_ := false
    has_last_sequence_ := false
    compact_pointers_ := []
    deleted_files_ := []
    deleted_p2files_ := []
    new_files_ := []
    new_l0_files_ := [] }

/-- The members as the initialiser list of `VersionEdit()` leaves them: every
member is value-initialised (empty string, zero, false, empty container). -/
def valueInitialized : VersionEdit :=
  { comparator_ := []
    log_number_ := 0
    prev_log_number_ := 0
    next_file_number_ := 0
    last_sequence_ := 0
    has_comparator_ := false
    has_log_number_ := false
    has_prev_log_number_ := false
    has_next_file_number_ := false
    has_last_sequence_ := false
    level := 0
    compact_pointers_ := []
    deleted_files_ := []
    deleted_p2files_ := []
    new_files_ := []
    new_l0_files_ := [] }

/-- The constructor `VersionEdit()`: the initialiser list, then `Clear()`. -/
def new : VersionEdit := Clear valueInitialized

/-- The member `SetComparatorName(const Slice& name)`. -/
def SetComparatorName (e : VersionEdit) (name : Slice) : VersionEdit :=
  { e with has_comparator_ := true, comparator_ := name.ToString }

/-- The member `SetLogNumber(uint64_t num)`. -/
def SetLogNumber (e : VersionEdit) (num : Nat) : VersionEdit :=
  { e with has_log_number_ := true, log_number_ := num }

/-- The member `SetPrevLogNumber(uint64_t num)`. -/
def SetPrevLogNumber (e : VersionEdit) (num : Nat) : VersionEdit :=
  { e with has_prev_log_number_ := true, prev_log_number_ := num }

/-- The member `SetNextFile(uint64_t num)`. -/
def SetNextFile (e : VersionEdit) (num : Nat) : VersionEdit :=
  { e with has_next_file_number_ := true, next_file_number_ := num }

/-- The member `SetLastSequence(SequenceNumber seq)`. -/
def SetLastSequence (e : VersionEdit) (seq : SequenceNumber) : VersionEdit :=
  { e with has_last_sequence_ := true, last_sequence_ := seq }

/-- The member `SetCompactPointer(int level, const InternalKey& key)`:
`compact_pointers_.push_back(std::make_pair(level, key))`. -/
def SetCompactPointer (e : VersionEdit) (level : Int) (key : InternalKey) : VersionEdit :=
  { e with compact_pointers_ := e.compact_pointers_ ++ [(level, key)] }

/-- The local `FileMetaData f` of `AddFile` and `AddL0File` after the four
assignments `f.number = file; f.file_size = file_size; f.smallest = smallest;
f.largest = largest`. -/
def mkFile (file file_size : Nat) (smallest largest : InternalKey) : FileMetaData :=
  { FileMetaData.new with
    number := file
    file_size := file_size
    smallest := smallest
    largest := largest }

/-- The member `AddFile(level, file, file_size, smallest, largest)`:
`new_files_.push_back(std::make_pair(level, f))`. -/
def AddFile (e : VersionEdit) (level : Int) (file file_size : Nat)
    (smallest largest : InternalKey) : VersionEdit :=
  { e with new_files_ := e.new_files_ ++ [(level, mkFile file file_size smallest largest)] }

/-- The member `AddL0File(par, file, file_size, smallest, largest)`:
`new_l0_files_.push_back(std::make_pair(par, f))`. -/
def AddL0File (e : VersionEdit) (par : Int) (file file_size : Nat)
    (smallest largest : InternalKey) : VersionEdit :=
  { e with new_l0_files_ := e.new_l0_files_ ++ [(par, mkFile file file_size smallest largest)] }

/-- The member `DeleteFile(int par, uint64_t file)`:
`deleted_files_.insert(std::make_pair(par, file))`. -/
def DeleteFile (e : VersionEdit) (par : Int) (file : Nat) : VersionEdit :=
  { e with deleted_files_ := DeletedFileSet.insert (par, file) e.deleted_files_ }

/-- The member `DeleteP2File(int par, uint64_t file)`:
`deleted_p2files_.insert(std::make_pair(par, file))`. -/
def DeleteP2File (e : VersionEdit) (par : Int) (file : Nat) : VersionEdit :=
  { e with deleted_p2files_ := DeletedFileSet.insert (par, file) e.deleted_p2files_ }

end VersionEdit

/-! ## Sequences of builder calls -/

/-- One call of a builder member of `VersionEdit`, with its arguments. -/
inductive Op where
  | setComparatorName (name : Slice)
  | setLogNumber (num : Nat)
  | setPrevLogNumber (num : Nat)
  | setNextFile (num : Nat)
  | setLastSequence (seq : SequenceNumber)
  | setCompactPointer (level : Int) (key : InternalKey)
  | addFile (level : Int) (file file_size : Nat) (smallest largest : InternalKey)
  | addL0File (par : Int) (file file_size : Nat) (smallest largest : InternalKey)
  | deleteFile (par : Int) (file : Nat)
  | deleteP2File (par : Int) (file : Nat)
  deriving DecidableEq, Repr

/-- The edit after the call `op` on the edit `e`. -/
def Op.apply (e : VersionEdit) : Op → VersionEdit
  | .setComparatorName name => e.SetComparatorName name
  | .setLogNumber num => e.SetLogNumber num
  | .setPrevLogNumber num => e.SetPrevLogNumber num
  | .setNextFile num => e.SetNextFile num
  | .setLastSequence seq => e.SetLastSequence seq
  | .setCompactPointer level key => e.SetCompactPointer level key
  | .addFile level file file_size smallest largest =>
      e.AddFile level file file_size smallest largest
  | .addL0File par file file_size smallest largest =>
      e.AddL0File par file file_size smallest largest
  | .deleteFile par file => e.DeleteFile par file
  | .deleteP2File par file => e.DeleteP2File par file

/-- The edit after the calls `ops`, made in order on the edit `e`. -/
def runOps (e : VersionEdit) (ops : List Op) : VersionEdit :=
  ops.foldl Op.apply e

/-- The `(par, file)` arguments of the `DeleteFile` calls among `ops`, in call order. -/
def deleteFileArgs : List Op → List (Int × Nat)
  | [] => []
  | .deleteFile par file :: ops => (par, file) :: deleteFileArgs ops
  | _ :: ops => deleteFileArgs ops

/-- The `(par, file)` arguments of the `DeleteP2File` calls among `ops`, in call order. -/
def deleteP2FileArgs : List Op → List (Int × Nat)
  | [] => []
  | .deleteP2File par file :: ops => (par, file) :: deleteP2FileArgs ops
  | _ :: ops => deleteP2FileArgs ops

/-! ## The edit-log record: `EncodeTo` and `DecodeFrom`

`VersionEdit::EncodeTo` and `VersionEdit::DecodeFrom` are declared in
`db/version_edit.h` and defined in `db/version_edit.cc`, which is not among
the sources.  This section models them from the record format of the spec:
"a sequence of `(tag, payload)` entries, tag an integer enum, payload
length-prefixed bytes or inline fixed-width integers".
-/

/-- Modelled from the spec: the tag enum of `db/version_edit.cc`.  The spec
names ten kinds of entry and no values; the model numbers them in the order in
which the spec lists them.  A tag is written as one byte. -/
def kComparator : Nat := 1
/-- Modelled from the spec: the tag of a log-number entry (see `kComparator`). -/
def kLogNumber : Nat := 2
/-- Modelled from the spec: the tag of a prev-log-number entry (see `kComparator`). -/
def kPrevLogNumber : Nat := 3
/-- Modelled from the spec: the tag of a next-file-number entry (see `kComparator`). -/
def kNextFileNumber : Nat := 4
/-- Modelled from the spec: the tag of a last-sequence entry (see `kComparator`). -/
def kLastSequence : Nat := 5
/-- Modelled from the spec: the tag of a compact-pointer entry (see `kComparator`). -/
def kCompactPointer : Nat := 6
/-- Modelled from the spec: the tag of a deleted-file entry (see `kComparator`). -/
def kDeletedFile : Nat := 7
/-- Modelled from the spec: the tag of a deleted-p2-file entry (see `kComparator`). -/
def kDeletedP2File : Nat := 8
/-- Modelled from the spec: the tag of a new-file entry (see `kComparator`). -/
def kNewFile : Nat := 9
/-- Modelled from the spec: the tag of a new-L0-file entry (see `kComparator`). -/
def kNewL0File : Nat := 10

/-- Modelled from the spec: the coding helpers of `util/coding.h` are not among
the sources.  An "inline fixed-width integer" holding a `uint64_t`: eight
bytes, least significant first. -/
def PutFixed64 (v : Nat) : List Nat :=
  [v % 256, v / 256 % 256, v / 65536 % 256, v / 16777216 % 256,
   v / 4294967296 % 256, v / 1099511627776 % 256, v / 281474976710656 % 256,
   v / 72057594037927936 % 256]

/-- Modelled from the spec: reads the eight bytes of `PutFixed64`; fails when
fewer than eight bytes are left (truncation). -/
def GetFixed64 : List Nat → Option (Nat × List Nat)
  | b0 :: b1 :: b2 :: b3 :: b4 :: b5 :: b6 :: b7 :: rest =>
    some (b0 + 256 * b1 + 65536 * b2 + 16777216 * b3 + 4294967296 * b4
      + 1099511627776 * b5 + 281474976710656 * b6 + 72057594037927936 * b7, rest)
  | _ => none

/-- Modelled from the spec: an "inline fixed-width integer" holding an `int`
(a level or a partition): the four bytes of its 32-bit two's complement, least
significant first. -/
def PutInt32 (v : Int) : List Nat :=
  let u := (v % 4294967296).toNat
  [u % 256, u / 256 % 256, u / 65536 % 256, u / 16777216 % 256]

/-- Modelled from the spec: reads the four bytes of `PutInt32` as a 32-bit
two's complement value; fails when fewer than four bytes are left. -/
def GetInt32 : List Nat → Option (Int × List Nat)
  | b0 :: b1 :: b2 :: b3 :: rest =>
    let u := b0 + 256 * b1 + 65536 * b2 + 16777216 * b3
    some (if u < 2147483648 then (u : Int) else (u : Int) - 4294967296, rest)
  | _ => none

/-- Modelled from the spec: the bytes of the varint of `v`, with the number of
bytes still allowed: seven bits a byte, least significant first, the high bit
set on every byte but the last. -/
def PutVarintAux : Nat → Nat → List Nat
  | 0, v => [v % 128]
  | fuel + 1, v =>
    if v < 128 then [v] else (v % 128 + 128) :: PutVarintAux fuel (v / 128)

/-- Modelled from the spec: the length before "length-prefixed bytes" is a
varint (the spec lists "malformed varint/length" among the decode errors).
The bound `v` on the number of bytes is never reached. -/
def PutVarint (v : Nat) : List Nat := PutVarintAux v v

/-- Modelled from the spec: reads a varint; fails when the input ends before a
byte without the high bit (a malformed varint). -/
def GetVarint : List Nat → Option (Nat × List Nat)
  | [] => none
  | b :: rest =>
    if b < 128 then some (b, rest)
    else
      match GetVarint rest with
      | none => none
      | some (v, rest) => some (b - 128 + 128 * v, rest)

/-- Modelled from the spec: "length-prefixed bytes": the length as a varint,
then the bytes. -/
def PutLengthPrefixedSlice (value : Slice) : List Nat :=
  PutVarint value.length ++ value

/-- Modelled from the spec: reads length-prefixed bytes; fails on a malformed
length and when fewer bytes are left than the length announces. -/
def GetLengthPrefixedSlice (input : List Nat) : Option (Slice × List Nat) :=
  match GetVarint input with
  | none => none
  | some (len, rest) =>
    if rest.length < len then none else some (rest.take len, rest.drop len)

/-- Modelled from the spec: "Decode must reject a record whose internal-key
payload is shorter than the minimum valid internal-key length".  The spec does
not give the length; the model takes 1, the least value under which the check
rejects a payload at all, and the only such value under which the keys `a` and
`m` of the scenario of the spec decode. -/
def kMinInternalKeyLength : Nat := 1

/-- Modelled from the spec: reads an encoded internal key, length-prefixed
bytes that pass the length validation. -/
def GetInternalKey (input : List Nat) : Option (InternalKey × List Nat) :=
  match GetLengthPrefixedSlice input with
  | none => none
  | some (str, rest) =>
    if str.length < kMinInternalKeyLength then none else some ({ rep_ := str }, rest)

/-- Modelled from the spec: one `(tag, payload)` entry.  An entry carries the
arguments of the builder call that records the same change: compact-pointer
(level + encoded internal key), deleted-file (level/partition + file-number),
deleted-p2-file (partition + file-number), new-file and new-L0-file
(level or partition + number + size + smallest + largest), and one value for
each of the five scalar entries. -/
def encodeOp : Op → List Nat
  | .setComparatorName name => kComparator :: PutLengthPrefixedSlice name
  | .setLogNumber num => kLogNumber :: PutFixed64 num
  | .setPrevLogNumber num => kPrevLogNumber :: PutFixed64 num
  | .setNextFile num => kNextFileNumber :: PutFixed64 num
  | .setLastSequence seq => kLastSequence :: PutFixed64 seq
  | .setCompactPointer level key =>
      kCompactPointer :: (PutInt32 level ++ PutLengthPrefixedSlice key.rep_)
  | .deleteFile par file => kDeletedFile :: (PutInt32 par ++ PutFixed64 file)
  | .deleteP2File par file => kDeletedP2File :: (PutInt32 par ++ PutFixed64 file)
  | .addFile level file file_size smallest largest =>
      kNewFile :: (PutInt32 level ++ PutFixed64 file ++ PutFixed64 file_size
        ++ PutLengthPrefixedSlice smallest.rep_ ++ PutLengthPrefixedSlice largest.rep_)
  | .addL0File par file file_size smallest largest =>
      kNewL0File :: (PutInt32 par ++ PutFixed64 file ++ PutFixed64 file_size
        ++ PutLengthPrefixedSlice smallest.rep_ ++ PutLengthPrefixedSlice largest.rep_)

/-- Modelled from the spec: "a sequence of `(tag, payload)` entries": the
entries of a list of changes, one after the other. -/
def encodeOps : List Op → List Nat
  | [] => []
  | op :: ops => encodeOp op ++ encodeOps ops

/-- Modelled from the spec: the entries `EncodeTo` writes for an edit: "Only
fields with their "has" flag set, and non-empty collections, are emitted", in
the order in which the spec lists the tags; a collection gives one entry for
each element, in the order of enumeration. -/
def records (e : VersionEdit) : List Op :=
  (if e.has_comparator_ then [Op.setComparatorName e.comparator_] else [])
  ++ (if e.has_log_number_ then [Op.setLogNumber e.log_number_] else [])
  ++ (if e.has_prev_log_number_ then [Op.setPrevLogNumber e.prev_log_number_] else [])
  ++ (if e.has_next_file_number_ then [Op.setNextFile e.next_file_number_] else [])
  ++ (if e.has_last_sequence_ then [Op.setLastSequence e.last_sequence_] else [])
  ++ e.compact_pointers_.map (fun p => Op.setCompactPointer p.1 p.2)
  ++ e.deleted_files_.map (fun p => Op.deleteFile p.1 p.2)
  ++ e.deleted_p2files_.map (fun p => Op.deleteP2File p.1 p.2)
  ++ e.new_files_.map
      (fun p => Op.addFile p.1 p.2.number p.2.file_size p.2.smallest p.2.largest)
  ++ e.new_l0_files_.map
      (fun p => Op.addL0File p.1 p.2.number p.2.file_size p.2.smallest p.2.largest)

/-- Modelled from the spec: `EncodeTo(std::string* dst)` appends the entries of
the edit to `dst`. -/
def VersionEdit.EncodeTo (e : VersionEdit) (dst : List Nat) : List Nat :=
  dst ++ encodeOps (records e)

/-- Modelled from the spec: reads one `(tag, payload)` entry and gives the
change it describes and the input left.  Fails (a decode error) on an empty
input, an unknown tag, a truncated or malformed payload and an internal key
that fails the length validation. -/
def decodeOp : List Nat → Option (Op × List Nat)
  | [] => none
  | tag :: input =>
    if tag = kComparator then
      (GetLengthPrefixedSlice input).bind fun (name, r) =>
      some (Op.setComparatorName name, r)
    else if tag = kLogNumber then
      (GetFixed64 input).bind fun (num, r) => some (Op.setLogNumber num, r)
    else if tag = kPrevLogNumber then
      (GetFixed64 input).bind fun (num, r) => some (Op.setPrevLogNumber num, r)
    else if tag = kNextFileNumber then
      (GetFixed64 input).bind fun (num, r) => some (Op.setNextFile num, r)
    else if tag = kLastSequence then
      (GetFixed64 input).bind fun (seq, r) => some (Op.setLastSequence seq, r)
    else if tag = kCompactPointer then
      (GetInt32 input).bind fun (level, r) =>
      (GetInternalKey r).bind fun (key, r) =>
      some (Op.setCompactPointer level key, r)
    else if tag = kDeletedFile then
      (GetInt32 input).bind fun (par, r) =>
      (GetFixed64 r).bind fun (file, r) =>
      some (Op.deleteFile par file, r)
    else if tag = kDeletedP2File then
      (GetInt32 input).bind fun (par, r) =>
      (GetFixed64 r).bind fun (file, r) =>
      some (Op.deleteP2File par file, r)
    else if tag = kNewFile then
      (GetInt32 input).bind fun (level, r) =>
      (GetFixed64 r).bind fun (file, r) =>
      (GetFixed64 r).bind fun (file_size, r) =>
      (GetInternalKey r).bind fun (smallest, r) =>
      (GetInternalKey r).bind fun (largest, r) =>
      some (Op.addFile level file file_size smallest largest, r)
    else if tag = kNewL0File then
      (GetInt32 input).bind fun (par, r) =>
      (GetFixed64 r).bind fun (file, r) =>
      (GetFixed64 r).bind fun (file_size, r) =>
      (GetInternalKey r).bind fun (smallest, r) =>
      (GetInternalKey r).bind fun (largest, r) =>
      some (Op.addL0File par file file_size smallest largest, r)
    else none

/-- Modelled from the spec: the loop of `DecodeFrom`: entries are read and
applied to the edit until the input is used up; the first entry that fails to
decode fails the whole record.  Every entry takes at least its tag byte, so a
bound of the length of the input is never reached. -/
def decodeLoop : Nat → List Nat → VersionEdit → Option VersionEdit
  | _, [], e => some e
  | 0, _ :: _, _ => none
  | fuel + 1, b :: input, e =>
    match decodeOp (b :: input) with
    | none => none
    | some (op, rest) => decodeLoop fuel rest (op.apply e)

/-- Modelled from the spec: `DecodeFrom(const Slice& src)` "parses a previously
encoded record" and "reconstructs an edit": the entries of `src` applied, in
order, to a freshly constructed edit; `none` is the decode error. -/
def VersionEdit.DecodeFrom (src : Slice) : Option VersionEdit :=
  decodeLoop src.length src VersionEdit.new

/-- The arguments of a call are values of their C++ types: an `int` lies in
the 32-bit range and a `uint64_t` is below `2^64`. -/
def Op.InRange : Op → Prop
  | .setComparatorName _ => True
  | .setLogNumber num => num < 2 ^ 64
  | .setPrevLogNumber num => num < 2 ^ 64
  | .setNextFile num => num < 2 ^ 64
  | .setLastSequence seq => seq < 2 ^ 64
  | .setCompactPointer level _ => -2 ^ 31 ≤ level ∧ level < 2 ^ 31
  | .addFile level file file_size _ _ =>
      (-2 ^ 31 ≤ level ∧ level < 2 ^ 31) ∧ file < 2 ^ 64 ∧ file_size < 2 ^ 64
  | .addL0File par file file_size _ _ =>
      (-2 ^ 31 ≤ par ∧ par < 2 ^ 31) ∧ file < 2 ^ 64 ∧ file_size < 2 ^ 64
  | .deleteFile par file => (-2 ^ 31 ≤ par ∧ par < 2 ^ 31) ∧ file < 2 ^ 64
  | .deleteP2File par file => (-2 ^ 31 ≤ par ∧ par < 2 ^ 31) ∧ file < 2 ^ 64

/-- Every internal key among the arguments of a call has at least the minimum
valid internal-key length. -/
def Op.KeysValid : Op → Prop
  | .setCompactPointer _ key => kMinInternalKeyLength ≤ key.rep_.length
  | .addFile _ _ _ smallest largest =>
      kMinInternalKeyLength ≤ smallest.rep_.length
        ∧ kMinInternalKeyLength ≤ largest.rep_.length
  | .addL0File _ _ _ smallest largest =>
      kMinInternalKeyLength ≤ smallest.rep_.length
        ∧ kMinInternalKeyLength ≤ largest.rep_.length
  | _ => True

/-! ## Predicates used to state the frame of a call -/

/-- The five scalar fields, the five has-flags and `level` agree in both edits. -/
def VersionEdit.sameScalars (a b : VersionEdit) : Prop :=
  a.comparator_ = b.comparator_ ∧ a.log_number_ = b.log_number_
    ∧ a.prev_log_number_ = b.prev_log_number_
    ∧ a.next_file_number_ = b.next_file_number_
    ∧ a.last_sequence_ = b.last_sequence_
    ∧ a.has_comparator_ = b.has_comparator_
    ∧ a.has_log_number_ = b.has_log_number_
    ∧ a.has_prev_log_number_ = b.has_prev_log_number_
    ∧ a.has_next_file_number_ = b.has_next_file_number_
    ∧ a.has_last_sequence_ = b.has_last_sequence_
    ∧ a.level = b.level

/-- The five collections agree in both edits. -/
def VersionEdit.sameCollections (a b : VersionEdit) : Prop :=
  a.compact_pointers_ = b.compact_pointers_ ∧ a.deleted_files_ = b.deleted_files_
    ∧ a.deleted_p2files_ = b.deleted_p2files_ ∧ a.new_files_ = b.new_files_
    ∧ a.new_l0_files_ = b.new_l0_files_

/-- The empty delta: no has-flag is set and the five collections are empty. -/
def VersionEdit.isEmptyDelta (e : VersionEdit) : Prop :=
  e.has_comparator_ = false ∧ e.has_log_number_ = false
    ∧ e.has_prev_log_number_ = false ∧ e.has_next_file_number_ = false
    ∧ e.has_last_sequence_ = false
    ∧ e.compact_pointers_ = [] ∧ e.deleted_files_ = [] ∧ e.deleted_p2files_ = []
    ∧ e.new_files_ = [] ∧ e.new_l0_files_ = []

/-- The calls `SetCompactPointer(l1, k1)`, ..., `SetCompactPointer(ln, kn)`, made in
that order. -/
def VersionEdit.SetCompactPointers (e : VersionEdit) (ps : List (Int × InternalKey)) :
    VersionEdit :=
  ps.foldl (fun e p => e.SetCompactPointer p.1 p.2) e

/-- What every edit built by builder calls on a fresh edit satisfies: a scalar
field whose has-flag is unset has its initial value, `level` is zero, the two
delete sets are strictly ascending, and every recorded file has the `refs` and
`allowed_seeks` of `FileMetaData()`. -/
def VersionEdit.wellFormed (e : VersionEdit) : Prop :=
  (e.has_comparator_ = false → e.comparator_ = [])
    ∧ (e.has_log_number_ = false → e.log_number_ = 0)
    ∧ (e.has_prev_log_number_ = false → e.prev_log_number_ = 0)
    ∧ (e.has_next_file_number_ = false → e.next_file_number_ = 0)
    ∧ (e.has_last_sequence_ = false → e.last_sequence_ = 0)
    ∧ e.level = 0
    ∧ e.deleted_files_.Pairwise (fun a b => pairLess a b = true)
    ∧ e.deleted_p2files_.Pairwise (fun a b => pairLess a b = true)
    ∧ (∀ p ∈ e.new_files_, p.2.refs = 0 ∧ p.2.allowed_seeks = 1 <<< 30)
    ∧ (∀ p ∈ e.new_l0_files_, p.2.refs = 0 ∧ p.2.allowed_seeks = 1 <<< 30)

/-! ## Cuts of a record between two entries -/

/-- The byte strings at which the record made of the entries `recs` ends
between two complete `(tag, payload)` entries: before the first entry, after
each entry, and so after the last. -/
def entryBoundaries : List Op → List (List Nat)
  | [] => [[]]
  | op :: ops => [] :: (entryBoundaries ops).map (fun b => encodeOp op ++ b)

/-! ## The table handle cache (db/table_cache.h)

`db/table_cache.h` declares the class `TableCache`; its member functions are
defined in `db/table_cache.cc`, which is not among the sources.  This section
models them from the contract of the spec.
-/

/-- Modelled from the spec: the class `Table` is declared in
`hyperleveldb/table.h`, which is not among the sources.  The model of an
opened table is the identity of the open that made it: the file number and
size it was opened with, and the number of opens the cache had performed
before it. -/
structure Table where
  file_number : Nat
  file_size : Nat
  serial : Nat
  deriving DecidableEq, Repr

/-- Modelled from the spec: the state of a `TableCache`: the capacity
`entries` given at construction, the content of `cache_` ("the cache key is
`(level, file_number)`"), most recently used first, and the number of file
opens performed so far. -/
structure TableCache where
  entries : Nat
  cache_ : List ((Nat × Nat) × Table)
  opens : Nat
  deriving DecidableEq, Repr

namespace TableCache

/-- Modelled from the spec: the cached entry for the key `(level, file_number)`,
when there is one. -/
def lookup (c : TableCache) (level file_number : Nat) : Option Table :=
  (c.cache_.find? (fun kv => decide (kv.1 = (level, file_number)))).map (fun kv => kv.2)

/-- Modelled from the spec: `FindTable(level, file_number, file_size, handle)`:
"if not cached, the file is opened from disk ... and inserted; if already
cached, the existing handle is reused"; "eviction follows least-recently-used
order"; "a failed open must leave the cache in the state it was in before the
attempt".  The collaborator `fileOpens` tells whether a valid file of that
number and size can be opened in one of the two directories.  The result is
the table (`none` for the error) and the cache after the call. -/
def FindTable (fileOpens : Nat → Nat → Bool) (c : TableCache)
    (level file_number file_size : Nat) : Option Table × TableCache :=
  match c.lookup level file_number with
  | some t =>
    (some t,
      { c with cache_ := ((level, file_number), t)
          :: c.cache_.filter (fun kv => !decide (kv.1 = (level, file_number))) })
  | none =>
    if fileOpens file_number file_size then
      let t : Table := { file_number := file_number, file_size := file_size, serial := c.opens }
      (some t,
        { c with
          cache_ := (((level, file_number), t) :: c.cache_).take c.entries
          opens := c.opens + 1 })
    else (none, { c with opens := c.opens + 1 })

/-- Modelled from the spec: `NewIterator(options, file_number, file_size, level,
tableptr)` resolves the file through `FindTable`; the result is the table
underlying the returned iterator (`*tableptr`), `none` for the error, and the
cache after the call. -/
def NewIterator (fileOpens : Nat → Nat → Bool) (c : TableCache)
    (file_number file_size level : Nat) : Option Table × TableCache :=
  FindTable fileOpens c level file_number file_size

/-- Modelled from the spec: `Get(options, level, file_number, file_size, k, arg,
handle_result)` "resolves the file the same way, then performs a point
lookup"; the collaborator `seek` is the lookup in an opened table, and its
result, when there is one, is what the callback receives. -/
def Get (fileOpens : Nat → Nat → Bool) (seek : Table → Slice → Option (Slice × Slice))
    (c : TableCache) (level file_number file_size : Nat) (k : Slice) :
    Option (Option (Slice × Slice)) × TableCache :=
  match FindTable fileOpens c level file_number file_size with
  | (some t, c2) => (some (seek t k), c2)
  | (none, c2) => (none, c2)

/-- Modelled from the spec: `Evict(file_number)` "removes and invalidates any
cached entry for that file number regardless of level". -/
def Evict (c : TableCache) (file_number : Nat) : TableCache :=
  { c with cache_ := c.cache_.filter (fun kv => !decide (kv.1.2 = file_number)) }

end TableCache

/-! ## Theorems -/

/-! ### The order of `std::pair<int, uint64_t>` and the ordered insertion -/

theorem pairLess_iff (a b : Int × Nat) :
    pairLess a b = true ↔ a.1 < b.1 ∨ (a.1 = b.1 ∧ a.2 < b.2) := by
  simp only [pairLess, Bool.or_eq_true, Bool.and_eq_true, Bool.not_eq_true',
    decide_eq_true_eq, decide_eq_false_iff_not]
  omega

theorem pairLess_irrefl (a : Int × Nat) : pairLess a a = false := by
  rw [Bool.eq_false_iff, Ne, pairLess_iff]
  omega

theorem pairLess_asymm {a b : Int × Nat} (h : pairLess a b = true) : pairLess b a = false := by
  rw [Bool.eq_false_iff, Ne, pairLess_iff]
  rw [pairLess_iff] at h
  omega

theorem pairLess_trans {a b c : Int × Nat} (hab : pairLess a b = true)
    (hbc : pairLess b c = true) : pairLess a c = true := by
  rw [pairLess_iff] at *
  omega

theorem eq_of_not_pairLess {a b : Int × Nat} (hab : pairLess a b = false)
    (hba : pairLess b a = false) : a = b := by
  rw [Bool.eq_false_iff, Ne, pairLess_iff] at hab hba
  apply Prod.ext <;> omega

namespace DeletedFileSet

theorem insert_insert (x : Int × Nat) (s : DeletedFileSet) :
    insert x (insert x s) = insert x s := by
  induction s with
  | nil => simp [insert, pairLess_irrefl]
  | cons y ys ih =>
    by_cases h1 : pairLess x y = true
    · simp [insert, h1, pairLess_irrefl]
    · by_cases h2 : pairLess y x = true
      · simp [insert, h1, h2, ih]
      · simp [insert, h1, h2]

theorem mem_insert (x y : Int × Nat) (s : DeletedFileSet) :
    y ∈ insert x s ↔ y = x ∨ y ∈ s := by
  induction s with
  | nil => simp [insert]
  | cons z zs ih =>
    by_cases h1 : pairLess x z = true
    · simp [insert, h1]
    · by_cases h2 : pairLess z x = true
      · rw [show insert x (z :: zs) = z :: insert x zs by simp [insert, h1, h2]]
        simp only [List.mem_cons, ih]
        tauto
      · have hxz : x = z := eq_of_not_pairLess (by simpa using h1) (by simpa using h2)
        subst hxz
        rw [show insert x (x :: zs) = x :: zs by simp [insert, pairLess_irrefl]]
        simp

end DeletedFileSet

namespace VersionEdit

/-! ### The builder calls -/

/-- C1: `DeleteFile(par, n)` called twice leaves the edit as one call leaves
it, for every edit and every argument; on a freshly constructed edit
`DeleteFile(0, 7)` twice leaves `deleted_files_` with the one element `(0, 7)`;
the same holds of `DeleteP2File` and `deleted_p2files_`. -/
theorem DeleteFile_twice :
    (∀ (e : VersionEdit) (par : Int) (n : Nat),
        (e.DeleteFile par n).DeleteFile par n = e.DeleteFile par n)
    ∧ ((VersionEdit.new.DeleteFile 0 7).DeleteFile 0 7).deleted_files_ = [(0, 7)]
    ∧ (∀ (e : VersionEdit) (par : Int) (n : Nat),
        (e.DeleteP2File par n).DeleteP2File par n = e.DeleteP2File par n)
    ∧ ((VersionEdit.new.DeleteP2File 0 7).DeleteP2File 0 7).deleted_p2files_ = [(0, 7)] := by
  refine ⟨?_, by decide, ?_, by decide⟩
  · intro e par n
    simp [DeleteFile, DeletedFileSet.insert_insert]
  · intro e par n
    simp [DeleteP2File, DeletedFileSet.insert_insert]

/-- C3: each of the five scalar setters stores its argument in its own field,
sets its own has-flag, and leaves the four other scalar fields, the four other
has-flags and the five collections as they were. -/
theorem scalar_setters_frame :
    (∀ (e : VersionEdit) (name : Slice),
        (e.SetComparatorName name).comparator_ = name
        ∧ (e.SetComparatorName name).has_comparator_ = true
        ∧ (e.SetComparatorName name).log_number_ = e.log_number_
        ∧ (e.SetComparatorName name).prev_log_number_ = e.prev_log_number_
        ∧ (e.SetComparatorName name).next_file_number_ = e.next_file_number_
        ∧ (e.SetComparatorName name).last_sequence_ = e.last_sequence_
        ∧ (e.SetComparatorName name).has_log_number_ = e.has_log_number_
        ∧ (e.SetComparatorName name).has_prev_log_number_ = e.has_prev_log_number_
        ∧ (e.SetComparatorName name).has_next_file_number_ = e.has_next_file_number_
        ∧ (e.SetComparatorName name).has_last_sequence_ = e.has_last_sequence_
        ∧ (e.SetComparatorName name).level = e.level
        ∧ (e.SetComparatorName name).sameCollections e)
    ∧ (∀ (e : VersionEdit) (v : Nat),
        (e.SetLogNumber v).log_number_ = v
        ∧ (e.SetLogNumber v).has_log_number_ = true
        ∧ (e.SetLogNumber v).comparator_ = e.comparator_
        ∧ (e.SetLogNumber v).prev_log_number_ = e.prev_log_number_
        ∧ (e.SetLogNumber v).next_file_number_ = e.next_file_number_
        ∧ (e.SetLogNumber v).last_sequence_ = e.last_sequence_
        ∧ (e.SetLogNumber v).has_comparator_ = e.has_comparator_
        ∧ (e.SetLogNumber v).has_prev_log_number_ = e.has_prev_log_number_
        ∧ (e.SetLogNumber v).has_next_file_number_ = e.has_next_file_number_
        ∧ (e.SetLogNumber v).has_last_sequence_ = e.has_last_sequence_
        ∧ (e.SetLogNumber v).level = e.level
        ∧ (e.SetLogNumber v).sameCollections e)
    ∧ (∀ (e : VersionEdit) (v : Nat),
        (e.SetPrevLogNumber v).prev_log_number_ = v
        ∧ (e.SetPrevLogNumber v).has_prev_log_number_ = true
        ∧ (e.SetPrevLogNumber v).comparator_ = e.comparator_
        ∧ (e.SetPrevLogNumber v).log_number_ = e.log_number_
        ∧ (e.SetPrevLogNumber v).next_file_number_ = e.next_file_number_
        ∧ (e.SetPrevLogNumber v).last_sequence_ = e.last_sequence_
        ∧ (e.SetPrevLogNumber v).has_comparator_ = e.has_comparator_
        ∧ (e.SetPrevLogNumber v).has_log_number_ = e.has_log_number_
        ∧ (e.SetPrevLogNumber v).has_next_file_number_ = e.has_next_file_number_
        ∧ (e.SetPrevLogNumber v).has_last_sequence_ = e.has_last_sequence_
        ∧ (e.SetPrevLogNumber v).level = e.level
        ∧ (e.SetPrevLogNumber v).sameCollections e)
    ∧ (∀ (e : VersionEdit) (v : Nat),
        (e.SetNextFile v).next_file_number_ = v
        ∧ (e.SetNextFile v).has_next_file_number_ = true
        ∧ (e.SetNextFile v).comparator_ = e.comparator_
        ∧ (e.SetNextFile v).log_number_ = e.log_number_
        ∧ (e.SetNextFile v).prev_log_number_ = e.prev_log_number_
        ∧ (e.SetNextFile v).last_sequence_ = e.last_sequence_
        ∧ (e.SetNextFile v).has_comparator_ = e.has_comparator_
        ∧ (e.SetNextFile v).has_log_number_ = e.has_log_number_
        ∧ (e.SetNextFile v).has_prev_log_number_ = e.has_prev_log_number_
        ∧ (e.SetNextFile v).has_last_sequence_ = e.has_last_sequence_
        ∧ (e.SetNextFile v).level = e.level
        ∧ (e.SetNextFile v).sameCollections e)
    ∧ (∀ (e : VersionEdit) (v : SequenceNumber),
        (e.SetLastSequence v).last_sequence_ = v
        ∧ (e.SetLastSequence v).has_last_sequence_ = true
        ∧ (e.SetLastSequence v).comparator_ = e.comparator_
        ∧ (e.SetLastSequence v).log_number_ = e.log_number_
        ∧ (e.SetLastSequence v).prev_log_number_ = e.prev_log_number_
        ∧ (e.SetLastSequence v).next_file_number_ = e.next_file_number_
        ∧ (e.SetLastSequence v).has_comparator_ = e.has_comparator_
        ∧ (e.SetLastSequence v).has_log_number_ = e.has_log_number_
        ∧ (e.SetLastSequence v).has_prev_log_number_ = e.has_prev_log_number_
        ∧ (e.SetLastSequence v).has_next_file_number_ = e.has_next_file_number_
        ∧ (e.SetLastSequence v).level = e.level
        ∧ (e.SetLastSequence v).sameCollections e) := by
  refine ⟨?_, ?_, ?_, ?_, ?_⟩ <;> intro e v <;>
    simp [SetComparatorName, SetLogNumber, SetPrevLogNumber, SetNextFile, SetLastSequence,
      Slice.ToString, sameCollections]

/-- C4: for each of the five scalar setters, the call with `a` followed by the
call with `b` leaves the edit as the call with `b` alone leaves it (the last
write wins); with `b = a`, the setter is idempotent. -/
theorem scalar_setters_last_write_wins :
    (∀ (e : VersionEdit) (a b : Slice),
        (e.SetComparatorName a).SetComparatorName b = e.SetComparatorName b
        ∧ (e.SetComparatorName a).SetComparatorName a = e.SetComparatorName a)
    ∧ (∀ (e : VersionEdit) (a b : Nat),
        (e.SetLogNumber a).SetLogNumber b = e.SetLogNumber b
        ∧ (e.SetLogNumber a).SetLogNumber a = e.SetLogNumber a)
    ∧ (∀ (e : VersionEdit) (a b : Nat),
        (e.SetPrevLogNumber a).SetPrevLogNumber b = e.SetPrevLogNumber b
        ∧ (e.SetPrevLogNumber a).SetPrevLogNumber a = e.SetPrevLogNumber a)
    ∧ (∀ (e : VersionEdit) (a b : Nat),
        (e.SetNextFile a).SetNextFile b = e.SetNextFile b
        ∧ (e.SetNextFile a).SetNextFile a = e.SetNextFile a)
    ∧ (∀ (e : VersionEdit) (a b : SequenceNumber),
        (e.SetLastSequence a).SetLastSequence b = e.SetLastSequence b
        ∧ (e.SetLastSequence a).SetLastSequence a = e.SetLastSequence a) := by
  refine ⟨?_, ?_, ?_, ?_, ?_⟩ <;> intro e a b <;> exact ⟨rfl, rfl⟩

theorem SetCompactPointers_eq (ps : List (Int × InternalKey)) (e : VersionEdit) :
    e.SetCompactPointers ps = { e with compact_pointers_ := e.compact_pointers_ ++ ps } := by
  induction ps generalizing e with
  | nil => simp [SetCompactPointers]
  | cons p ps ih =>
    have h := ih (e.SetCompactPointer p.1 p.2)
    simp only [SetCompactPointers, List.foldl_cons] at h ⊢
    rw [h]
    simp [SetCompactPointer]

/-- C5: the calls `SetCompactPointer(l1, k1)`, ..., `SetCompactPointer(ln, kn)` in
that order make `compact_pointers_` its previous contents followed by the
pairs `(l1, k1)`, ..., `(ln, kn)` in call order, whatever the levels are (a
pair with a repeated level is kept: the length grows by `n`), and change no
other member. -/
theorem SetCompactPointer_appends (e : VersionEdit) (ps : List (Int × InternalKey)) :
    (e.SetCompactPointers ps).compact_pointers_ = e.compact_pointers_ ++ ps
    ∧ (e.SetCompactPointers ps).compact_pointers_.length
        = e.compact_pointers_.length + ps.length
    ∧ (e.SetCompactPointers ps).sameScalars e
    ∧ (e.SetCompactPointers ps).deleted_files_ = e.deleted_files_
    ∧ (e.SetCompactPointers ps).deleted_p2files_ = e.deleted_p2files_
    ∧ (e.SetCompactPointers ps).new_files_ = e.new_files_
    ∧ (e.SetCompactPointers ps).new_l0_files_ = e.new_l0_files_ := by
  rw [SetCompactPointers_eq]
  simp [sameScalars]

/-- C6: `AddFile(level, number, size, smallest, largest)` makes `new_files_` its
previous contents followed by one entry `(level, f)` with `f.number = number`,
`f.file_size = size`, `f.smallest = smallest` and `f.largest = largest`, for
every pair of keys (no order between them is asked); on a freshly constructed
edit `AddFile(1, 7, 4096, "a", "m")` gives a `new_files_` of length one
holding `(1, {7, 4096, "a", "m"})`. -/
theorem AddFile_appends :
    (∀ (e : VersionEdit) (level : Int) (number size : Nat) (smallest largest : InternalKey),
      ∃ f : FileMetaData,
        (e.AddFile level number size smallest largest).new_files_
          = e.new_files_ ++ [(level, f)]
        ∧ f.number = number ∧ f.file_size = size
        ∧ f.smallest = smallest ∧ f.largest = largest)
    ∧ (VersionEdit.new.AddFile 1 7 4096 { rep_ := [97] } { rep_ := [109] }).new_files_.length = 1
    ∧ (VersionEdit.new.AddFile 1 7 4096 { rep_ := [97] } { rep_ := [109] }).new_files_
        = [(1, { refs := 0, allowed_seeks := 1073741824, number := 7, file_size := 4096,
                 smallest := { rep_ := [97] }, largest := { rep_ := [109] } })] := by
  refine ⟨?_, by decide, by decide⟩
  intro e level number size smallest largest
  exact ⟨mkFile number size smallest largest, rfl, rfl, rfl, rfl, rfl⟩

/-- C7: `AddL0File(par, number, size, smallest, largest)` appends the one entry
`(par, {number, size, smallest, largest})` to `new_l0_files_` and leaves
`new_files_` and every other member as they were; `AddFile` leaves
`new_l0_files_` and every member other than `new_files_` as they were. -/
theorem AddFile_AddL0File_disjoint (e : VersionEdit) (n : Int) (number size : Nat)
    (smallest largest : InternalKey) :
    (∃ f : FileMetaData,
        (e.AddL0File n number size smallest largest).new_l0_files_
          = e.new_l0_files_ ++ [(n, f)]
        ∧ f.number = number ∧ f.file_size = size
        ∧ f.smallest = smallest ∧ f.largest = largest)
    ∧ (e.AddL0File n number size smallest largest).new_files_ = e.new_files_
    ∧ (e.AddL0File n number size smallest largest).sameScalars e
    ∧ (e.AddL0File n number size smallest largest).compact_pointers_ = e.compact_pointers_
    ∧ (e.AddL0File n number size smallest largest).deleted_files_ = e.deleted_files_
    ∧ (e.AddL0File n number size smallest largest).deleted_p2files_ = e.deleted_p2files_
    ∧ (e.AddFile n number size smallest largest).new_l0_files_ = e.new_l0_files_
    ∧ (e.AddFile n number size smallest largest).sameScalars e
    ∧ (e.AddFile n number size smallest largest).compact_pointers_ = e.compact_pointers_
    ∧ (e.AddFile n number size smallest largest).deleted_files_ = e.deleted_files_
    ∧ (e.AddFile n number size smallest largest).deleted_p2files_ = e.deleted_p2files_ := by
  refine ⟨⟨mkFile number size smallest largest, rfl, rfl, rfl, rfl, rfl⟩, ?_⟩
  simp [AddL0File, AddFile, sameScalars]

/-- C9: `DeleteFile(par, n)` leaves `deleted_p2files_` and every member other
than `deleted_files_` as they were, and `DeleteP2File(par, n)` leaves
`deleted_files_` and every member other than `deleted_p2files_` as they were.
After `DeleteFile(p, n)` on a freshly constructed edit, `(p, n)` is in
`deleted_files_` and not in `deleted_p2files_`, and `deleted_files_` is the
same whether `DeleteP2File(p, n)` is called before it, after it or not at
all. -/
theorem delete_sets_independent (e : VersionEdit) (p : Int) (n : Nat) :
    ((e.DeleteFile p n).deleted_p2files_ = e.deleted_p2files_
      ∧ (e.DeleteFile p n).sameScalars e
      ∧ (e.DeleteFile p n).compact_pointers_ = e.compact_pointers_
      ∧ (e.DeleteFile p n).new_files_ = e.new_files_
      ∧ (e.DeleteFile p n).new_l0_files_ = e.new_l0_files_)
    ∧ ((e.DeleteP2File p n).deleted_files_ = e.deleted_files_
      ∧ (e.DeleteP2File p n).sameScalars e
      ∧ (e.DeleteP2File p n).compact_pointers_ = e.compact_pointers_
      ∧ (e.DeleteP2File p n).new_files_ = e.new_files_
      ∧ (e.DeleteP2File p n).new_l0_files_ = e.new_l0_files_)
    ∧ ((p, n) ∈ (VersionEdit.new.DeleteFile p n).deleted_files_
      ∧ (p, n) ∉ (VersionEdit.new.DeleteFile p n).deleted_p2files_)
    ∧ ((VersionEdit.new.DeleteFile p n).DeleteP2File p n).deleted_files_
        = (VersionEdit.new.DeleteFile p n).deleted_files_
    ∧ ((VersionEdit.new.DeleteP2File p n).DeleteFile p n).deleted_files_
        = (VersionEdit.new.DeleteFile p n).deleted_files_ := by
  refine ⟨?_, ?_, ?_, rfl, rfl⟩
  · simp [DeleteFile, sameScalars]
  · simp [DeleteP2File, sameScalars]
  · simp [DeleteFile, VersionEdit.new, Clear, valueInitialized, DeletedFileSet.insert]

/-- C10: after `Clear()` the five has-flags are false and the five collections
are empty, for every edit and so for every edit reached by builder calls; a
freshly constructed edit is in that state; `Clear()` called twice leaves the
edit as one call leaves it. -/
theorem Clear_resets :
    (∀ e : VersionEdit, e.Clear.isEmptyDelta)
    ∧ (∀ ops : List Op, (runOps VersionEdit.new ops).Clear.isEmptyDelta)
    ∧ VersionEdit.new.isEmptyDelta
    ∧ (∀ e : VersionEdit, e.Clear.Clear = e.Clear) := by
  refine ⟨?_, ?_, ?_, ?_⟩
  · intro e
    simp [Clear, isEmptyDelta]
  · intro ops
    simp [Clear, isEmptyDelta]
  · simp [VersionEdit.new, Clear, isEmptyDelta]
  · intro e
    rfl

end VersionEdit

/-! ### Reachable edits: the delete sets are strictly ascending -/

namespace DeletedFileSet

/-- The elements are enumerated in strictly ascending order. -/
theorem insert_ascending (x : Int × Nat) (s : DeletedFileSet)
    (hs : s.Pairwise (fun a b => pairLess a b = true)) :
    (insert x s).Pairwise (fun a b => pairLess a b = true) := by
  induction s with
  | nil => simp [insert]
  | cons y ys ih =>
    rw [List.pairwise_cons] at hs
    by_cases h1 : pairLess x y = true
    · rw [show insert x (y :: ys) = x :: y :: ys by simp [insert, h1]]
      refine List.Pairwise.cons ?_ (List.Pairwise.cons hs.1 hs.2)
      intro z hz
      rcases List.mem_cons.mp hz with rfl | hz
      · exact h1
      · exact pairLess_trans h1 (hs.1 z hz)
    · by_cases h2 : pairLess y x = true
      · rw [show insert x (y :: ys) = y :: insert x ys by simp [insert, h1, h2]]
        refine List.Pairwise.cons ?_ (ih hs.2)
        intro z hz
        rcases (mem_insert x z ys).mp hz with rfl | hz
        · exact h2
        · exact hs.1 z hz
      · rw [show insert x (y :: ys) = y :: ys by simp [insert, h1, h2]]
        exact List.Pairwise.cons hs.1 hs.2

theorem nodup_of_ascending (s : DeletedFileSet)
    (hs : s.Pairwise (fun a b => pairLess a b = true)) : s.Nodup := by
  refine List.Pairwise.imp ?_ hs
  intro a b hab heq
  subst heq
  rw [pairLess_irrefl] at hab
  exact Bool.false_ne_true hab

theorem foldl_insert_ascending (xs : List (Int × Nat)) (s : DeletedFileSet)
    (hs : s.Pairwise (fun a b => pairLess a b = true)) :
    (xs.foldl (fun s x => insert x s) s).Pairwise (fun a b => pairLess a b = true) := by
  induction xs generalizing s with
  | nil => simpa using hs
  | cons x xs ih => exact ih _ (insert_ascending x s hs)

theorem mem_foldl_insert (xs : List (Int × Nat)) (s : DeletedFileSet) (y : Int × Nat) :
    y ∈ xs.foldl (fun s x => insert x s) s ↔ y ∈ xs ∨ y ∈ s := by
  induction xs generalizing s with
  | nil => simp
  | cons x xs ih =>
    rw [List.foldl_cons, ih, mem_insert, List.mem_cons]
    tauto

theorem length_foldl_insert (xs : List (Int × Nat)) :
    (xs.foldl (fun s x => insert x s) []).length = xs.toFinset.card := by
  have hnd : (xs.foldl (fun s x => insert x s) ([] : DeletedFileSet)).Nodup :=
    nodup_of_ascending _ (foldl_insert_ascending xs [] List.Pairwise.nil)
  rw [← List.toFinset_card_of_nodup hnd]
  congr 1
  ext y
  simp [mem_foldl_insert]

end DeletedFileSet

theorem deleted_files_runOps (ops : List Op) (e : VersionEdit) :
    (runOps e ops).deleted_files_
      = (deleteFileArgs ops).foldl (fun s x => DeletedFileSet.insert x s) e.deleted_files_ := by
  induction ops generalizing e with
  | nil => rfl
  | cons op ops ih =>
    have h := ih (op.apply e)
    simp only [runOps, List.foldl_cons] at h ⊢
    rw [h]
    cases op <;> rfl

theorem deleted_p2files_runOps (ops : List Op) (e : VersionEdit) :
    (runOps e ops).deleted_p2files_
      = (deleteP2FileArgs ops).foldl (fun s x => DeletedFileSet.insert x s)
          e.deleted_p2files_ := by
  induction ops generalizing e with
  | nil => rfl
  | cons op ops ih =>
    have h := ih (op.apply e)
    simp only [runOps, List.foldl_cons] at h ⊢
    rw [h]
    cases op <;> rfl

/-- C8: in every edit reached from a freshly constructed edit by builder calls,
`deleted_files_` holds no pair more than once and `deleted_p2files_` holds no
pair more than once; the number of elements of `deleted_files_` is the number
of distinct `(par, file)` arguments passed to `DeleteFile`, and likewise for
`deleted_p2files_` and `DeleteP2File`. -/
theorem delete_sets_unique (ops : List Op) :
    (runOps VersionEdit.new ops).deleted_files_.Nodup
    ∧ (runOps VersionEdit.new ops).deleted_p2files_.Nodup
    ∧ (runOps VersionEdit.new ops).deleted_files_.length = (deleteFileArgs ops).toFinset.card
    ∧ (runOps VersionEdit.new ops).deleted_p2files_.length
        = (deleteP2FileArgs ops).toFinset.card := by
  rw [deleted_files_runOps, deleted_p2files_runOps]
  have h1 : VersionEdit.new.deleted_files_ = [] := rfl
  have h2 : VersionEdit.new.deleted_p2files_ = [] := rfl
  rw [h1, h2]
  exact ⟨DeletedFileSet.nodup_of_ascending _
      (DeletedFileSet.foldl_insert_ascending _ [] List.Pairwise.nil),
    DeletedFileSet.nodup_of_ascending _
      (DeletedFileSet.foldl_insert_ascending _ [] List.Pairwise.nil),
    DeletedFileSet.length_foldl_insert _, DeletedFileSet.length_foldl_insert _⟩

/-! ### The coding helpers: reading what was written -/

theorem GetFixed64_PutFixed64 (v : Nat) (r : List Nat) (hv : v < 2 ^ 64) :
    GetFixed64 (PutFixed64 v ++ r) = some (v, r) := by
  simp only [PutFixed64, List.cons_append, List.nil_append, GetFixed64, Option.some.injEq,
    Prod.mk.injEq, and_true]
  omega

theorem GetInt32_PutInt32 (v : Int) (r : List Nat) (hlo : -2 ^ 31 ≤ v) (hhi : v < 2 ^ 31) :
    GetInt32 (PutInt32 v ++ r) = some (v, r) := by
  simp only [PutInt32, List.cons_append, List.nil_append, GetInt32, Option.some.injEq,
    Prod.mk.injEq, and_true]
  generalize hu : (v % 4294967296).toNat = u
  have hu1 : (u : Int) = v % 4294967296 := by
    rw [← hu]
    exact Int.toNat_of_nonneg (Int.emod_nonneg _ (by decide))
  have hsum : u % 256 + 256 * (u / 256 % 256) + 65536 * (u / 65536 % 256)
      + 16777216 * (u / 16777216 % 256) = u := by
    have : u < 4294967296 := by omega
    omega
  rw [hsum]
  split <;> omega

theorem GetVarint_PutVarintAux (fuel v : Nat) (r : List Nat) (h : v ≤ fuel) :
    GetVarint (PutVarintAux fuel v ++ r) = some (v, r) := by
  induction fuel generalizing v with
  | zero =>
    have hv : v = 0 := by omega
    subst hv
    simp [PutVarintAux, GetVarint]
  | succ fuel ih =>
    by_cases hlt : v < 128
    · simp [PutVarintAux, GetVarint, hlt]
    · have hrec := ih (v / 128) (by omega)
      have hnot : ¬ (v % 128 + 128 < 128) := by omega
      simp only [PutVarintAux, hlt, if_false, List.cons_append, GetVarint, hnot, hrec,
        Option.some.injEq, Prod.mk.injEq, and_true]
      omega

theorem GetLengthPrefixedSlice_Put (s r : List Nat) :
    GetLengthPrefixedSlice (PutLengthPrefixedSlice s ++ r) = some (s, r) := by
  simp [GetLengthPrefixedSlice, PutLengthPrefixedSlice, PutVarint, List.append_assoc,
    GetVarint_PutVarintAux s.length s.length (s ++ r) (Nat.le_refl _)]

theorem GetInternalKey_Put (k : InternalKey) (r : List Nat)
    (hk : kMinInternalKeyLength ≤ k.rep_.length) :
    GetInternalKey (PutLengthPrefixedSlice k.rep_ ++ r) = some (k, r) := by
  have hnot : ¬ (k.rep_.length < kMinInternalKeyLength) := by omega
  simp [GetInternalKey, GetLengthPrefixedSlice_Put, hnot]

theorem decodeOp_encodeOp (op : Op) (r : List Nat) (hr : op.InRange) (hk : op.KeysValid) :
    decodeOp (encodeOp op ++ r) = some (op, r) := by
  cases op with
  | setComparatorName name =>
    simp [encodeOp, decodeOp, GetLengthPrefixedSlice_Put]
  | setLogNumber num =>
    simp [encodeOp, decodeOp, kComparator, kLogNumber, GetFixed64_PutFixed64 num r hr]
  | setPrevLogNumber num =>
    simp [encodeOp, decodeOp, kComparator, kLogNumber, kPrevLogNumber,
      GetFixed64_PutFixed64 num r hr]
  | setNextFile num =>
    simp [encodeOp, decodeOp, kComparator, kLogNumber, kPrevLogNumber, kNextFileNumber,
      GetFixed64_PutFixed64 num r hr]
  | setLastSequence seq =>
    simp [encodeOp, decodeOp, kComparator, kLogNumber, kPrevLogNumber, kNextFileNumber,
      kLastSequence, GetFixed64_PutFixed64 seq r hr]
  | setCompactPointer level key =>
    simp [encodeOp, decodeOp, kComparator, kLogNumber, kPrevLogNumber, kNextFileNumber,
      kLastSequence, kCompactPointer, List.append_assoc,
      GetInt32_PutInt32 level _ hr.1 hr.2, GetInternalKey_Put key r hk]
  | deleteFile par file =>
    simp [encodeOp, decodeOp, kComparator, kLogNumber, kPrevLogNumber, kNextFileNumber,
      kLastSequence, kCompactPointer, kDeletedFile, List.append_assoc,
      GetInt32_PutInt32 par _ hr.1.1 hr.1.2, GetFixed64_PutFixed64 file r hr.2]
  | deleteP2File par file =>
    simp [encodeOp, decodeOp, kComparator, kLogNumber, kPrevLogNumber, kNextFileNumber,
      kLastSequence, kCompactPointer, kDeletedFile, kDeletedP2File, List.append_assoc,
      GetInt32_PutInt32 par _ hr.1.1 hr.1.2, GetFixed64_PutFixed64 file r hr.2]
  | addFile level file file_size smallest largest =>
    simp [encodeOp, decodeOp, kComparator, kLogNumber, kPrevLogNumber, kNextFileNumber,
      kLastSequence, kCompactPointer, kDeletedFile, kDeletedP2File, kNewFile,
      List.append_assoc, GetInt32_PutInt32 level _ hr.1.1 hr.1.2,
      GetFixed64_PutFixed64 file _ hr.2.1, GetFixed64_PutFixed64 file_size _ hr.2.2,
      GetInternalKey_Put smallest _ hk.1, GetInternalKey_Put largest r hk.2]
  | addL0File par file file_size smallest largest =>
    simp [encodeOp, decodeOp, kComparator, kLogNumber, kPrevLogNumber, kNextFileNumber,
      kLastSequence, kCompactPointer, kDeletedFile, kDeletedP2File, kNewFile, kNewL0File,
      List.append_assoc, GetInt32_PutInt32 par _ hr.1.1 hr.1.2,
      GetFixed64_PutFixed64 file _ hr.2.1, GetFixed64_PutFixed64 file_size _ hr.2.2,
      GetInternalKey_Put smallest _ hk.1, GetInternalKey_Put largest r hk.2]

theorem encodeOp_eq_cons (op : Op) : ∃ b bs, encodeOp op = b :: bs := by
  cases op <;> exact ⟨_, _, rfl⟩

theorem length_le_encodeOps (ops : List Op) : ops.length ≤ (encodeOps ops).length := by
  induction ops with
  | nil => simp [encodeOps]
  | cons op ops ih =>
    obtain ⟨b, bs, hb⟩ := encodeOp_eq_cons op
    simp only [encodeOps, hb, List.length_cons, List.cons_append, List.length_append]
    omega

theorem decodeLoop_encodeOps (ops : List Op) (fuel : Nat) (e : VersionEdit)
    (hv : ∀ op ∈ ops, op.InRange ∧ op.KeysValid) (hf : ops.length ≤ fuel) :
    decodeLoop fuel (encodeOps ops) e = some (runOps e ops) := by
  induction ops generalizing fuel e with
  | nil => cases fuel <;> simp [encodeOps, decodeLoop, runOps]
  | cons op ops ih =>
    obtain ⟨b, bs, hb⟩ := encodeOp_eq_cons op
    have hdec := decodeOp_encodeOp op (encodeOps ops) (hv op (List.mem_cons_self _ _)).1
      (hv op (List.mem_cons_self _ _)).2
    cases fuel with
    | zero => simp at hf
    | succ fuel =>
      rw [hb] at hdec
      simp only [encodeOps, hb, List.cons_append, decodeLoop] at hdec ⊢
      rw [hdec]
      simp only [runOps, List.foldl_cons]
      exact ih fuel (op.apply e) (fun o ho => hv o (List.mem_cons_of_mem _ ho))
        (by simpa using hf)

/-! ### The entries of an edit, applied to a fresh edit, rebuild the edit -/

theorem runOps_append (e : VersionEdit) (a b : List Op) :
    runOps e (a ++ b) = runOps (runOps e a) b := by
  simp [runOps, List.foldl_append]

theorem runOps_ite (e : VersionEdit) (c : Bool) (op : Op) :
    runOps e (if c = true then [op] else []) = if c = true then op.apply e else e := by
  cases c <;> simp [runOps]

theorem runOps_compact_pointers (ps : List (Int × InternalKey)) (e : VersionEdit) :
    runOps e (ps.map (fun p => Op.setCompactPointer p.1 p.2))
      = { e with compact_pointers_ := e.compact_pointers_ ++ ps } := by
  induction ps generalizing e with
  | nil => simp [runOps]
  | cons p ps ih =>
    have h := ih (e.SetCompactPointer p.1 p.2)
    simp only [runOps, List.map_cons, List.foldl_cons, Op.apply] at h ⊢
    rw [h]
    simp [VersionEdit.SetCompactPointer]

theorem runOps_deleted_files (ps : List (Int × Nat)) (e : VersionEdit) :
    runOps e (ps.map (fun p => Op.deleteFile p.1 p.2))
      = { e with deleted_files_ :=
            ps.foldl (fun s x => DeletedFileSet.insert x s) e.deleted_files_ } := by
  induction ps generalizing e with
  | nil => simp [runOps]
  | cons p ps ih =>
    have h := ih (e.DeleteFile p.1 p.2)
    simp only [runOps, List.map_cons, List.foldl_cons, Op.apply] at h ⊢
    rw [h]
    simp [VersionEdit.DeleteFile]

theorem runOps_deleted_p2files (ps : List (Int × Nat)) (e : VersionEdit) :
    runOps e (ps.map (fun p => Op.deleteP2File p.1 p.2))
      = { e with deleted_p2files_ :=
            ps.foldl (fun s x => DeletedFileSet.insert x s) e.deleted_p2files_ } := by
  induction ps generalizing e with
  | nil => simp [runOps]
  | cons p ps ih =>
    have h := ih (e.DeleteP2File p.1 p.2)
    simp only [runOps, List.map_cons, List.foldl_cons, Op.apply] at h ⊢
    rw [h]
    simp [VersionEdit.DeleteP2File]

theorem runOps_new_files (ps : List (Int × FileMetaData)) (e : VersionEdit) :
    runOps e (ps.map
        (fun p => Op.addFile p.1 p.2.number p.2.file_size p.2.smallest p.2.largest))
      = { e with new_files_ := e.new_files_ ++ ps.map (fun p =>
            (p.1, VersionEdit.mkFile p.2.number p.2.file_size p.2.smallest p.2.largest)) } := by
  induction ps generalizing e with
  | nil => simp [runOps]
  | cons p ps ih =>
    have h := ih (e.AddFile p.1 p.2.number p.2.file_size p.2.smallest p.2.largest)
    simp only [runOps, List.map_cons, List.foldl_cons, Op.apply] at h ⊢
    rw [h]
    simp [VersionEdit.AddFile]

theorem runOps_new_l0_files (ps : List (Int × FileMetaData)) (e : VersionEdit) :
    runOps e (ps.map
        (fun p => Op.addL0File p.1 p.2.number p.2.file_size p.2.smallest p.2.largest))
      = { e with new_l0_files_ := e.new_l0_files_ ++ ps.map (fun p =>
            (p.1, VersionEdit.mkFile p.2.number p.2.file_size p.2.smallest p.2.largest)) } := by
  induction ps generalizing e with
  | nil => simp [runOps]
  | cons p ps ih =>
    have h := ih (e.AddL0File p.1 p.2.number p.2.file_size p.2.smallest p.2.largest)
    simp only [runOps, List.map_cons, List.foldl_cons, Op.apply] at h ⊢
    rw [h]
    simp [VersionEdit.AddL0File]

namespace DeletedFileSet

theorem insert_of_all_less (x : Int × Nat) (s : DeletedFileSet)
    (h : ∀ y ∈ s, pairLess y x = true) : insert x s = s ++ [x] := by
  induction s with
  | nil => rfl
  | cons y ys ih =>
    have hy : pairLess y x = true := h y (List.mem_cons_self _ _)
    have hxy : pairLess x y = false := pairLess_asymm hy
    simp [insert, hy, hxy, ih (fun z hz => h z (List.mem_cons_of_mem _ hz))]

theorem foldl_insert_of_ascending (xs : List (Int × Nat)) (s : DeletedFileSet)
    (h : (s ++ xs).Pairwise (fun a b => pairLess a b = true)) :
    xs.foldl (fun s x => insert x s) s = s ++ xs := by
  induction xs generalizing s with
  | nil => simp
  | cons x xs ih =>
    have hless : ∀ y ∈ s, pairLess y x = true := by
      intro y hy
      exact (List.pairwise_append.mp h).2.2 y hy x (List.mem_cons_self _ _)
    rw [List.foldl_cons, insert_of_all_less x s hless]
    have h2 : (s ++ [x] ++ xs).Pairwise (fun a b => pairLess a b = true) := by
      simpa using h
    rw [ih (s ++ [x]) h2]
    simp

end DeletedFileSet

theorem map_mkFile_eq (ps : List (Int × FileMetaData))
    (h : ∀ p ∈ ps, p.2.refs = 0 ∧ p.2.allowed_seeks = 1 <<< 30) :
    ps.map (fun p =>
      (p.1, VersionEdit.mkFile p.2.number p.2.file_size p.2.smallest p.2.largest)) = ps := by
  induction ps with
  | nil => rfl
  | cons p ps ih =>
    obtain ⟨l, f⟩ := p
    obtain ⟨refs, seeks, number, size, smallest, largest⟩ := f
    have hp := h _ (List.mem_cons_self _ _)
    simp only at hp
    rw [List.map_cons, ih (fun q hq => h q (List.mem_cons_of_mem _ hq))]
    simp [VersionEdit.mkFile, FileMetaData.new, hp.1, hp.2]

theorem runOps_records (e : VersionEdit) (h : e.wellFormed) :
    runOps VersionEdit.new (records e) = e := by
  obtain ⟨h1, h2, h3, h4, h5, h6, h7, h8, h9, h10⟩ := h
  obtain ⟨c, ln, pl, nf, ls, hc, hln, hpl, hnf, hls, lv, cps, dfs, dps, nfs, nls⟩ := e
  simp only at h1 h2 h3 h4 h5 h6 h7 h8 h9 h10
  have e7 : dfs.foldl (fun s x => DeletedFileSet.insert x s) [] = dfs := by
    simpa using DeletedFileSet.foldl_insert_of_ascending dfs [] (by simpa using h7)
  have e8 : dps.foldl (fun s x => DeletedFileSet.insert x s) [] = dps := by
    simpa using DeletedFileSet.foldl_insert_of_ascending dps [] (by simpa using h8)
  have e9 := map_mkFile_eq nfs h9
  have e10 := map_mkFile_eq nls h10
  simp only [records, runOps_append, runOps_ite, runOps_compact_pointers,
    runOps_deleted_files, runOps_deleted_p2files, runOps_new_files, runOps_new_l0_files]
  subst h6
  have k1 : (if hc = true then
      Op.apply VersionEdit.new (Op.setComparatorName c) else VersionEdit.new)
      = { VersionEdit.new with has_comparator_ := hc, comparator_ := c } := by
    cases hc
    · rw [h1 rfl]; rfl
    · rfl
  rw [k1]
  have k2 : ∀ e0 : VersionEdit, e0.has_log_number_ = false → e0.log_number_ = 0 →
      (if hln = true then Op.apply e0 (Op.setLogNumber ln) else e0)
      = { e0 with has_log_number_ := hln, log_number_ := ln } := by
    intro e0 ha hb
    cases hln
    · rw [h2 rfl]
      cases e0
      simp only at ha hb
      subst ha hb
      rfl
    · rfl
  rw [k2 _ rfl rfl]
  have k3 : ∀ e0 : VersionEdit, e0.has_prev_log_number_ = false → e0.prev_log_number_ = 0 →
      (if hpl = true then Op.apply e0 (Op.setPrevLogNumber pl) else e0)
      = { e0 with has_prev_log_number_ := hpl, prev_log_number_ := pl } := by
    intro e0 ha hb
    cases hpl
    · rw [h3 rfl]
      cases e0
      simp only at ha hb
      subst ha hb
      rfl
    · rfl
  rw [k3 _ rfl rfl]
  have k4 : ∀ e0 : VersionEdit, e0.has_next_file_number_ = false → e0.next_file_number_ = 0 →
      (if hnf = true then Op.apply e0 (Op.setNextFile nf) else e0)
      = { e0 with has_next_file_number_ := hnf, next_file_number_ := nf } := by
    intro e0 ha hb
    cases hnf
    · rw [h4 rfl]
      cases e0
      simp only at ha hb
      subst ha hb
      rfl
    · rfl
  rw [k4 _ rfl rfl]
  have k5 : ∀ e0 : VersionEdit, e0.has_last_sequence_ = false → e0.last_sequence_ = 0 →
      (if hls = true then Op.apply e0 (Op.setLastSequence ls) else e0)
      = { e0 with has_last_sequence_ := hls, last_sequence_ := ls } := by
    intro e0 ha hb
    cases hls
    · rw [h5 rfl]
      cases e0
      simp only at ha hb
      subst ha hb
      rfl
    · rfl
  rw [k5 _ rfl rfl]
  simp only [VersionEdit.new, VersionEdit.Clear, VersionEdit.valueInitialized, List.nil_append,
    e7, e8, e9, e10]

/-! ### The bound of `decodeLoop` is never reached -/

theorem GetFixed64_length {input r : List Nat} {v : Nat} (h : GetFixed64 input = some (v, r)) :
    r.length ≤ input.length := by
  match input, h with
  | b0 :: b1 :: b2 :: b3 :: b4 :: b5 :: b6 :: b7 :: rest, h =>
    simp only [GetFixed64, Option.some.injEq, Prod.mk.injEq] at h
    rw [← h.2]
    simp only [List.length_cons]
    omega

theorem GetInt32_length {input r : List Nat} {v : Int} (h : GetInt32 input = some (v, r)) :
    r.length ≤ input.length := by
  match input, h with
  | b0 :: b1 :: b2 :: b3 :: rest, h =>
    simp only [GetInt32, Option.some.injEq, Prod.mk.injEq] at h
    rw [← h.2]
    simp only [List.length_cons]
    omega

theorem GetVarint_length {input r : List Nat} {v : Nat} (h : GetVarint input = some (v, r)) :
    r.length ≤ input.length := by
  induction input generalizing v r with
  | nil => simp [GetVarint] at h
  | cons b rest ih =>
    by_cases hb : b < 128
    · simp only [GetVarint, hb, if_true, Option.some.injEq, Prod.mk.injEq] at h
      rw [← h.2]
      simp
    · simp only [GetVarint, hb, if_false] at h
      cases hrec : GetVarint rest with
      | none => simp [hrec] at h
      | some p =>
        obtain ⟨w, r2⟩ := p
        simp only [hrec, Option.some.injEq, Prod.mk.injEq] at h
        have := ih hrec
        rw [← h.2]
        simp only [List.length_cons]
        omega

theorem GetLengthPrefixedSlice_length {input r : List Nat} {s : Slice}
    (h : GetLengthPrefixedSlice input = some (s, r)) : r.length ≤ input.length := by
  unfold GetLengthPrefixedSlice at h
  cases hv : GetVarint input with
  | none => simp [hv] at h
  | some p =>
    obtain ⟨len, rest⟩ := p
    simp only [hv] at h
    have h1 := GetVarint_length hv
    by_cases hl : rest.length < len
    · simp [hl] at h
    · simp only [hl, if_false, Option.some.injEq, Prod.mk.injEq] at h
      rw [← h.2, List.length_drop]
      omega

theorem GetInternalKey_length {input r : List Nat} {k : InternalKey}
    (h : GetInternalKey input = some (k, r)) : r.length ≤ input.length := by
  unfold GetInternalKey at h
  cases hv : GetLengthPrefixedSlice input with
  | none => simp [hv] at h
  | some p =>
    obtain ⟨str, rest⟩ := p
    simp only [hv] at h
    have h1 := GetLengthPrefixedSlice_length hv
    by_cases hl : str.length < kMinInternalKeyLength
    · simp [hl] at h
    · simp only [hl, if_false, Option.some.injEq, Prod.mk.injEq] at h
      rw [← h.2]
      exact h1

theorem decodeOp_length {b : Nat} {input rest : List Nat} {op : Op}
    (h : decodeOp (b :: input) = some (op, rest)) : rest.length ≤ input.length := by
  simp only [decodeOp] at h
  by_cases c0 : b = kComparator
  · rw [if_pos c0] at h
    obtain ⟨⟨a, r⟩, h1, h2⟩ := Option.bind_eq_some.mp h
    simp only [Option.some.injEq, Prod.mk.injEq] at h2
    rw [← h2.2]
    exact GetLengthPrefixedSlice_length h1
  · rw [if_neg c0] at h
    by_cases c1 : b = kLogNumber
    · rw [if_pos c1] at h
      obtain ⟨⟨a, r⟩, h1, h2⟩ := Option.bind_eq_some.mp h
      simp only [Option.some.injEq, Prod.mk.injEq] at h2
      rw [← h2.2]
      exact GetFixed64_length h1
    · rw [if_neg c1] at h
      by_cases c2 : b = kPrevLogNumber
      · rw [if_pos c2] at h
        obtain ⟨⟨a, r⟩, h1, h2⟩ := Option.bind_eq_some.mp h
        simp only [Option.some.injEq, Prod.mk.injEq] at h2
        rw [← h2.2]
        exact GetFixed64_length h1
      · rw [if_neg c2] at h
        by_cases c3 : b = kNextFileNumber
        · rw [if_pos c3] at h
          obtain ⟨⟨a, r⟩, h1, h2⟩ := Option.bind_eq_some.mp h
          simp only [Option.some.injEq, Prod.mk.injEq] at h2
          rw [← h2.2]
          exact GetFixed64_length h1
        · rw [if_neg c3] at h
          by_cases c4 : b = kLastSequence
          · rw [if_pos c4] at h
            obtain ⟨⟨a, r⟩, h1, h2⟩ := Option.bind_eq_some.mp h
            simp only [Option.some.injEq, Prod.mk.injEq] at h2
            rw [← h2.2]
            exact GetFixed64_length h1
          · rw [if_neg c4] at h
            by_cases c5 : b = kCompactPointer
            · rw [if_pos c5] at h
              obtain ⟨⟨a1, r1⟩, h1, h⟩ := Option.bind_eq_some.mp h
              obtain ⟨⟨a2, r2⟩, h2, h⟩ := Option.bind_eq_some.mp h
              simp only [Option.some.injEq, Prod.mk.injEq] at h
              rw [← h.2]
              exact Nat.le_trans (GetInternalKey_length h2) (GetInt32_length h1)
            · rw [if_neg c5] at h
              by_cases c6 : b = kDeletedFile
              · rw [if_pos c6] at h
                obtain ⟨⟨a1, r1⟩, h1, h⟩ := Option.bind_eq_some.mp h
                obtain ⟨⟨a2, r2⟩, h2, h⟩ := Option.bind_eq_some.mp h
                simp only [Option.some.injEq, Prod.mk.injEq] at h
                rw [← h.2]
                exact Nat.le_trans (GetFixed64_length h2) (GetInt32_length h1)
              · rw [if_neg c6] at h
                by_cases c7 : b = kDeletedP2File
                · rw [if_pos c7] at h
                  obtain ⟨⟨a1, r1⟩, h1, h⟩ := Option.bind_eq_some.mp h
                  obtain ⟨⟨a2, r2⟩, h2, h⟩ := Option.bind_eq_some.mp h
                  simp only [Option.some.injEq, Prod.mk.injEq] at h
                  rw [← h.2]
                  exact Nat.le_trans (GetFixed64_length h2) (GetInt32_length h1)
                · rw [if_neg c7] at h
                  by_cases c8 : b = kNewFile
                  · rw [if_pos c8] at h
                    obtain ⟨⟨a1, r1⟩, h1, h⟩ := Option.bind_eq_some.mp h
                    obtain ⟨⟨a2, r2⟩, h2, h⟩ := Option.bind_eq_some.mp h
                    obtain ⟨⟨a3, r3⟩, h3, h⟩ := Option.bind_eq_some.mp h
                    obtain ⟨⟨a4, r4⟩, h4, h⟩ := Option.bind_eq_some.mp h
                    obtain ⟨⟨a5, r5⟩, h5, h⟩ := Option.bind_eq_some.mp h
                    simp only [Option.some.injEq, Prod.mk.injEq] at h
                    rw [← h.2]
                    have l1 := GetInt32_length h1
                    have l2 := GetFixed64_length h2
                    have l3 := GetFixed64_length h3
                    have l4 := GetInternalKey_length h4
                    have l5 := GetInternalKey_length h5
                    simp only at l2 l3 l4 l5
                    omega
                  · rw [if_neg c8] at h
                    by_cases c9 : b = kNewL0File
                    · rw [if_pos c9] at h
                      obtain ⟨⟨a1, r1⟩, h1, h⟩ := Option.bind_eq_some.mp h
                      obtain ⟨⟨a2, r2⟩, h2, h⟩ := Option.bind_eq_some.mp h
                      obtain ⟨⟨a3, r3⟩, h3, h⟩ := Option.bind_eq_some.mp h
                      obtain ⟨⟨a4, r4⟩, h4, h⟩ := Option.bind_eq_some.mp h
                      obtain ⟨⟨a5, r5⟩, h5, h⟩ := Option.bind_eq_some.mp h
                      simp only [Option.some.injEq, Prod.mk.injEq] at h
                      rw [← h.2]
                      have l1 := GetInt32_length h1
                      have l2 := GetFixed64_length h2
                      have l3 := GetFixed64_length h3
                      have l4 := GetInternalKey_length h4
                      have l5 := GetInternalKey_length h5
                      simp only at l2 l3 l4 l5
                      omega
                    · rw [if_neg c9] at h
                      simp at h

/-- Any bound of at least the length of the input gives the result of
`DecodeFrom`: the loop never stops for want of steps. -/
theorem decodeLoop_bound (fuel : Nat) (input : List Nat) (e : VersionEdit)
    (h : input.length ≤ fuel) :
    decodeLoop fuel input e = decodeLoop input.length input e := by
  induction fuel using Nat.strong_induction_on generalizing input e with
  | _ fuel ih =>
    cases input with
    | nil => cases fuel <;> rfl
    | cons b input =>
      cases fuel with
      | zero => simp at h
      | succ fuel =>
        simp only [List.length_cons, decodeLoop]
        cases hd : decodeOp (b :: input) with
        | none => rfl
        | some p =>
          obtain ⟨op, rest⟩ := p
          have hl := decodeOp_length hd
          have hf : input.length ≤ fuel := by simpa using h
          simp only []
          rw [ih fuel (Nat.lt_succ_self _) rest _ (Nat.le_trans hl hf)]
          by_cases heq : input.length = fuel
          · subst heq
            rw [ih input.length (Nat.lt_succ_self _) rest _ hl]
          · rw [ih input.length (by omega) rest _ hl]

/-! ### Edits built by builder calls -/

theorem wellFormed_new : VersionEdit.new.wellFormed := by
  simp [VersionEdit.wellFormed, VersionEdit.new, VersionEdit.Clear,
    VersionEdit.valueInitialized]

theorem wellFormed_apply (op : Op) (e : VersionEdit) (h : e.wellFormed) :
    (op.apply e).wellFormed := by
  obtain ⟨h1, h2, h3, h4, h5, h6, h7, h8, h9, h10⟩ := h
  cases op with
  | setComparatorName name =>
    exact ⟨by simp [Op.apply, VersionEdit.SetComparatorName], h2, h3, h4, h5, h6, h7, h8, h9, h10⟩
  | setLogNumber num =>
    exact ⟨h1, by simp [Op.apply, VersionEdit.SetLogNumber], h3, h4, h5, h6, h7, h8, h9, h10⟩
  | setPrevLogNumber num =>
    exact ⟨h1, h2, by simp [Op.apply, VersionEdit.SetPrevLogNumber], h4, h5, h6, h7, h8, h9, h10⟩
  | setNextFile num =>
    exact ⟨h1, h2, h3, by simp [Op.apply, VersionEdit.SetNextFile], h5, h6, h7, h8, h9, h10⟩
  | setLastSequence seq =>
    exact ⟨h1, h2, h3, h4, by simp [Op.apply, VersionEdit.SetLastSequence], h6, h7, h8, h9, h10⟩
  | setCompactPointer level key => exact ⟨h1, h2, h3, h4, h5, h6, h7, h8, h9, h10⟩
  | deleteFile par file =>
    exact ⟨h1, h2, h3, h4, h5, h6, DeletedFileSet.insert_ascending _ _ h7, h8, h9, h10⟩
  | deleteP2File par file =>
    exact ⟨h1, h2, h3, h4, h5, h6, h7, DeletedFileSet.insert_ascending _ _ h8, h9, h10⟩
  | addFile level file file_size smallest largest =>
    refine ⟨h1, h2, h3, h4, h5, h6, h7, h8, ?_, h10⟩
    intro p hp
    simp only [Op.apply, VersionEdit.AddFile, List.mem_append, List.mem_singleton] at hp
    rcases hp with hp | rfl
    · exact h9 p hp
    · exact ⟨rfl, rfl⟩
  | addL0File par file file_size smallest largest =>
    refine ⟨h1, h2, h3, h4, h5, h6, h7, h8, h9, ?_⟩
    intro p hp
    simp only [Op.apply, VersionEdit.AddL0File, List.mem_append, List.mem_singleton] at hp
    rcases hp with hp | rfl
    · exact h10 p hp
    · exact ⟨rfl, rfl⟩

theorem wellFormed_runOps (ops : List Op) (e : VersionEdit) (h : e.wellFormed) :
    (runOps e ops).wellFormed := by
  induction ops generalizing e with
  | nil => exact h
  | cons op ops ih => exact ih (op.apply e) (wellFormed_apply op e h)

theorem mem_map_insert (f : Int × Nat → Op) (s : DeletedFileSet) (p : Int × Nat) (x : Op) :
    x ∈ List.map f (DeletedFileSet.insert p s) ↔ x = f p ∨ x ∈ List.map f s := by
  simp only [List.mem_map, DeletedFileSet.mem_insert]
  constructor
  · rintro ⟨a, rfl | ha, rfl⟩
    · exact Or.inl rfl
    · exact Or.inr ⟨a, ha, rfl⟩
  · rintro (rfl | ⟨a, ha, rfl⟩)
    · exact ⟨p, Or.inl rfl, rfl⟩
    · exact ⟨a, Or.inr ha, rfl⟩

theorem mem_records_apply (op x : Op) (e : VersionEdit) (hx : x ∈ records (op.apply e)) :
    x = op ∨ x ∈ records e := by
  cases op with
  | setComparatorName name =>
    simp only [records, Op.apply, VersionEdit.SetComparatorName, Slice.ToString,
      List.mem_append] at hx ⊢
    simp only [if_true, List.mem_singleton] at hx
    tauto
  | setLogNumber num =>
    simp only [records, Op.apply, VersionEdit.SetLogNumber, List.mem_append] at hx ⊢
    simp only [if_true, List.mem_singleton] at hx
    tauto
  | setPrevLogNumber num =>
    simp only [records, Op.apply, VersionEdit.SetPrevLogNumber, List.mem_append] at hx ⊢
    simp only [if_true, List.mem_singleton] at hx
    tauto
  | setNextFile num =>
    simp only [records, Op.apply, VersionEdit.SetNextFile, List.mem_append] at hx ⊢
    simp only [if_true, List.mem_singleton] at hx
    tauto
  | setLastSequence seq =>
    simp only [records, Op.apply, VersionEdit.SetLastSequence, List.mem_append] at hx ⊢
    simp only [if_true, List.mem_singleton] at hx
    tauto
  | setCompactPointer level key =>
    simp only [records, Op.apply, VersionEdit.SetCompactPointer, List.mem_append,
      List.map_append, List.map_cons, List.map_nil, List.mem_singleton] at hx ⊢
    tauto
  | deleteFile par file =>
    simp only [records, Op.apply, VersionEdit.DeleteFile, List.mem_append,
      mem_map_insert] at hx ⊢
    tauto
  | deleteP2File par file =>
    simp only [records, Op.apply, VersionEdit.DeleteP2File, List.mem_append,
      mem_map_insert] at hx ⊢
    tauto
  | addFile level file file_size smallest largest =>
    have hm : Op.addFile level (VersionEdit.mkFile file file_size smallest largest).number
        (VersionEdit.mkFile file file_size smallest largest).file_size
        (VersionEdit.mkFile file file_size smallest largest).smallest
        (VersionEdit.mkFile file file_size smallest largest).largest
        = Op.addFile level file file_size smallest largest := rfl
    simp only [records, Op.apply, VersionEdit.AddFile, List.mem_append,
      List.map_append, List.map_cons, List.map_nil, List.mem_singleton, hm] at hx ⊢
    tauto
  | addL0File par file file_size smallest largest =>
    have hm : Op.addL0File par (VersionEdit.mkFile file file_size smallest largest).number
        (VersionEdit.mkFile file file_size smallest largest).file_size
        (VersionEdit.mkFile file file_size smallest largest).smallest
        (VersionEdit.mkFile file file_size smallest largest).largest
        = Op.addL0File par file file_size smallest largest := rfl
    simp only [records, Op.apply, VersionEdit.AddL0File, List.mem_append,
      List.map_append, List.map_cons, List.map_nil, List.mem_singleton, hm] at hx ⊢
    tauto

theorem records_runOps (P : Op → Prop) (ops : List Op) (e : VersionEdit)
    (he : ∀ x ∈ records e, P x) (hops : ∀ op ∈ ops, P op) :
    ∀ x ∈ records (runOps e ops), P x := by
  induction ops generalizing e with
  | nil => exact he
  | cons op ops ih =>
    refine ih (op.apply e) ?_ (fun o ho => hops o (List.mem_cons_of_mem _ ho))
    intro x hx
    rcases mem_records_apply op x e hx with rfl | hx
    · exact hops x (List.mem_cons_self _ _)
    · exact he x hx

/-- C2 (amended): for every edit obtained from a freshly constructed edit by a
finite sequence of `SetComparatorName`, `SetLogNumber`, `SetPrevLogNumber`,
`SetNextFile`, `SetLastSequence`, `SetCompactPointer`, `AddFile`, `AddL0File`,
`DeleteFile` and `DeleteP2File` calls whose arguments are values of their C++
types and whose internal keys all have at least the minimum valid
internal-key length, `DecodeFrom` applied to the bytes written by `EncodeTo`
succeeds and yields the same edit: the same scalar fields and has-flags, the
same compact-pointer sequence and the same four file collections. -/
theorem DecodeFrom_EncodeTo (ops : List Op) (hr : ∀ op ∈ ops, op.InRange)
    (hk : ∀ op ∈ ops, op.KeysValid) :
    VersionEdit.DecodeFrom ((runOps VersionEdit.new ops).EncodeTo [])
      = some (runOps VersionEdit.new ops) := by
  have hrec : ∀ x ∈ records (runOps VersionEdit.new ops), x.InRange ∧ x.KeysValid :=
    records_runOps (fun x => x.InRange ∧ x.KeysValid) ops VersionEdit.new
      (by simp [records, VersionEdit.new, VersionEdit.Clear, VersionEdit.valueInitialized])
      (fun op hop => ⟨hr op hop, hk op hop⟩)
  simp only [VersionEdit.DecodeFrom, VersionEdit.EncodeTo, List.nil_append]
  rw [decodeLoop_encodeOps _ _ _ hrec (length_le_encodeOps _)]
  rw [runOps_records _ (wellFormed_runOps ops _ wellFormed_new)]

/-- C2 (witness): `AddFile(1, 7, 4096, "a", "m")` on a fresh edit, encoded then
decoded, gives back the edit, whose `new_files_` is the one entry
`(1, {number 7, file_size 4096, smallest "a", largest "m"})`. -/
theorem DecodeFrom_EncodeTo_witness :
    (∀ op ∈ [Op.addFile 1 7 4096 { rep_ := [97] } { rep_ := [109] }], op.InRange)
    ∧ (∀ op ∈ [Op.addFile 1 7 4096 { rep_ := [97] } { rep_ := [109] }], op.KeysValid)
    ∧ VersionEdit.DecodeFrom
        ((runOps VersionEdit.new
          [Op.addFile 1 7 4096 { rep_ := [97] } { rep_ := [109] }]).EncodeTo [])
      = some (runOps VersionEdit.new [Op.addFile 1 7 4096 { rep_ := [97] } { rep_ := [109] }])
    ∧ (runOps VersionEdit.new
          [Op.addFile 1 7 4096 { rep_ := [97] } { rep_ := [109] }]).new_files_
      = [(1, { refs := 0, allowed_seeks := 1073741824, number := 7, file_size := 4096,
               smallest := { rep_ := [97] }, largest := { rep_ := [109] } })] :=
  ⟨by simp [Op.InRange], by simp [Op.KeysValid, kMinInternalKeyLength],
    DecodeFrom_EncodeTo _ (by simp [Op.InRange]) (by simp [Op.KeysValid, kMinInternalKeyLength]),
    by decide⟩

/-- C2 (counterexample): an edit built by one builder call whose bytes
`DecodeFrom` rejects: `SetCompactPointer(0, InternalKey())` on a fresh edit,
and likewise `AddFile(1, 7, 4096, InternalKey(), InternalKey())`; the encoded
internal key is shorter than the minimum valid internal-key length, and
reading it back fails. -/
theorem DecodeFrom_EncodeTo_empty_key :
    VersionEdit.DecodeFrom
        ((VersionEdit.new.SetCompactPointer 0 InternalKey.default).EncodeTo []) = none
    ∧ VersionEdit.DecodeFrom
        ((VersionEdit.new.AddFile 1 7 4096 InternalKey.default InternalKey.default).EncodeTo [])
      = none
    ∧ GetInternalKey (PutLengthPrefixedSlice InternalKey.default.rep_) = none := by
  decide

/-! ### Defaults, sequence semantics and growth -/

namespace VersionEdit

/-- C14: the entry appended by `AddFile`, and the entry appended by `AddL0File`,
has `refs = 0` and `allowed_seeks = 2^30 = 1073741824`, whatever the level or
partition, number, size and keys are; a default-constructed `FileMetaData` has
`refs = 0`, `allowed_seeks = 1073741824`, `number = 0` and `file_size = 0`. -/
theorem FileMetaData_defaults :
    (∀ (e : VersionEdit) (level : Int) (number size : Nat) (smallest largest : InternalKey),
      ∃ f : FileMetaData,
        (e.AddFile level number size smallest largest).new_files_
          = e.new_files_ ++ [(level, f)]
        ∧ f.refs = 0 ∧ f.allowed_seeks = 1073741824 ∧ f.allowed_seeks = 2 ^ 30)
    ∧ (∀ (e : VersionEdit) (par : Int) (number size : Nat) (smallest largest : InternalKey),
      ∃ f : FileMetaData,
        (e.AddL0File par number size smallest largest).new_l0_files_
          = e.new_l0_files_ ++ [(par, f)]
        ∧ f.refs = 0 ∧ f.allowed_seeks = 1073741824 ∧ f.allowed_seeks = 2 ^ 30)
    ∧ FileMetaData.new.refs = 0 ∧ FileMetaData.new.allowed_seeks = 1073741824
    ∧ FileMetaData.new.number = 0 ∧ FileMetaData.new.file_size = 0 := by
  have h1 : FileMetaData.new.allowed_seeks = 1073741824 := by decide
  have h2 : FileMetaData.new.allowed_seeks = 2 ^ 30 := by decide
  refine ⟨?_, ?_, rfl, h1, rfl, rfl⟩
  · intro e level number size smallest largest
    exact ⟨mkFile number size smallest largest, rfl, rfl, h1, h2⟩
  · intro e par number size smallest largest
    exact ⟨mkFile number size smallest largest, rfl, rfl, h1, h2⟩

/-- C16: `AddFile` makes `new_files_` longer by exactly one, for every edit and
all arguments, also when an entry with the same level and file number, or with
the same arguments throughout, is already there; `AddFile` called twice with
the same arguments on a fresh edit leaves `new_files_` with two equal entries,
where `DeleteFile` called twice leaves one element; the same holds of
`AddL0File` and `new_l0_files_`. -/
theorem AddFile_sequence_semantics :
    (∀ (e : VersionEdit) (level : Int) (number size : Nat) (smallest largest : InternalKey),
      (e.AddFile level number size smallest largest).new_files_.length
        = e.new_files_.length + 1)
    ∧ (∀ (level : Int) (number size : Nat) (smallest largest : InternalKey),
      ((VersionEdit.new.AddFile level number size smallest largest).AddFile
          level number size smallest largest).new_files_
        = [(level, mkFile number size smallest largest),
           (level, mkFile number size smallest largest)])
    ∧ (∀ (par : Int) (number : Nat),
      ((VersionEdit.new.DeleteFile par number).DeleteFile par number).deleted_files_
        = [(par, number)])
    ∧ (∀ (e : VersionEdit) (par : Int) (number size : Nat) (smallest largest : InternalKey),
      (e.AddL0File par number size smallest largest).new_l0_files_.length
        = e.new_l0_files_.length + 1)
    ∧ (∀ (par : Int) (number size : Nat) (smallest largest : InternalKey),
      ((VersionEdit.new.AddL0File par number size smallest largest).AddL0File
          par number size smallest largest).new_l0_files_
        = [(par, mkFile number size smallest largest),
           (par, mkFile number size smallest largest)]) := by
  refine ⟨?_, ?_, ?_, ?_, ?_⟩
  · intro e level number size smallest largest
    simp [AddFile]
  · intro level number size smallest largest
    rfl
  · intro par number
    simp [DeleteFile, VersionEdit.new, Clear, valueInitialized, DeletedFileSet.insert,
      pairLess_irrefl]
  · intro e par number size smallest largest
    simp [AddL0File]
  · intro par number size smallest largest
    rfl

end VersionEdit

/-- C17: a single builder call only grows an edit: every has-flag that was true
before the call is true after it, `compact_pointers_`, `new_files_` and
`new_l0_files_` before the call are prefixes of their values after it, and
`deleted_files_` and `deleted_p2files_` before the call are subsets of their
values after it. -/
theorem builder_calls_grow (e : VersionEdit) (op : Op) :
    (e.has_comparator_ = true → (op.apply e).has_comparator_ = true)
    ∧ (e.has_log_number_ = true → (op.apply e).has_log_number_ = true)
    ∧ (e.has_prev_log_number_ = true → (op.apply e).has_prev_log_number_ = true)
    ∧ (e.has_next_file_number_ = true → (op.apply e).has_next_file_number_ = true)
    ∧ (e.has_last_sequence_ = true → (op.apply e).has_last_sequence_ = true)
    ∧ e.compact_pointers_ <+: (op.apply e).compact_pointers_
    ∧ e.new_files_ <+: (op.apply e).new_files_
    ∧ e.new_l0_files_ <+: (op.apply e).new_l0_files_
    ∧ e.deleted_files_ ⊆ (op.apply e).deleted_files_
    ∧ e.deleted_p2files_ ⊆ (op.apply e).deleted_p2files_ := by
  cases op <;>
    simp [Op.apply, VersionEdit.SetComparatorName, VersionEdit.SetLogNumber,
      VersionEdit.SetPrevLogNumber, VersionEdit.SetNextFile, VersionEdit.SetLastSequence,
      VersionEdit.SetCompactPointer, VersionEdit.AddFile, VersionEdit.AddL0File,
      VersionEdit.DeleteFile, VersionEdit.DeleteP2File, List.subset_def,
      DeletedFileSet.mem_insert] <;>
    tauto

/-! ### Deletions commute -/

namespace DeletedFileSet

theorem insert_comm (x y : Int × Nat) (s : DeletedFileSet) :
    insert x (insert y s) = insert y (insert x s) := by
  by_cases hxy : pairLess x y = true
  · have hyx : pairLess y x = false := pairLess_asymm hxy
    induction s with
    | nil => simp [insert, hxy, hyx]
    | cons z zs ih =>
      by_cases hxz : pairLess x z = true <;> by_cases hzx : pairLess z x = true <;>
        by_cases hyz : pairLess y z = true <;> by_cases hzy : pairLess z y = true <;>
        simp [insert, hxy, hyx, hxz, hzx, hyz, hzy, ih] <;>
        (rw [pairLess_iff] at *; simp only [Bool.eq_false_iff, ne_eq, pairLess_iff] at *; omega)
  · by_cases hyx : pairLess y x = true
    · have hxy2 : pairLess x y = false := pairLess_asymm hyx
      induction s with
      | nil => simp [insert, hxy2, hyx]
      | cons z zs ih =>
        by_cases hxz : pairLess x z = true <;> by_cases hzx : pairLess z x = true <;>
          by_cases hyz : pairLess y z = true <;> by_cases hzy : pairLess z y = true <;>
          simp [insert, hxy2, hyx, hxz, hzx, hyz, hzy, ih] <;>
          (rw [pairLess_iff] at *; simp only [Bool.eq_false_iff, ne_eq, pairLess_iff] at *; omega)
    · have heq : x = y := eq_of_not_pairLess (by simpa using hxy) (by simpa using hyx)
      rw [heq]

end DeletedFileSet

/-- C15: deletions commute: `DeleteFile(p1, n1)` followed by `DeleteFile(p2, n2)`
leaves the edit as the two calls in the opposite order leave it (the same
`deleted_files_`, enumerated in the same order), for every edit and all
arguments; likewise for `DeleteP2File`; a `DeleteFile` call commutes with a
`DeleteP2File` call; and on an edit built by builder calls the enumeration of
both delete sets after the two calls is ascending in the lexicographic order
on `(par, file)`. -/
theorem deletions_commute (p1 p2 : Int) (n1 n2 : Nat) :
    (∀ e : VersionEdit,
      (e.DeleteFile p1 n1).DeleteFile p2 n2 = (e.DeleteFile p2 n2).DeleteFile p1 n1)
    ∧ (∀ e : VersionEdit,
      (e.DeleteP2File p1 n1).DeleteP2File p2 n2 = (e.DeleteP2File p2 n2).DeleteP2File p1 n1)
    ∧ (∀ e : VersionEdit,
      (e.DeleteFile p1 n1).DeleteP2File p2 n2 = (e.DeleteP2File p2 n2).DeleteFile p1 n1)
    ∧ (∀ ops : List Op,
      (((runOps VersionEdit.new ops).DeleteFile p1 n1).DeleteFile p2 n2).deleted_files_.Pairwise
          (fun a b => a.1 < b.1 ∨ (a.1 = b.1 ∧ a.2 < b.2))
      ∧ (((runOps VersionEdit.new ops).DeleteP2File p1 n1).DeleteP2File
            p2 n2).deleted_p2files_.Pairwise
          (fun a b => a.1 < b.1 ∨ (a.1 = b.1 ∧ a.2 < b.2))) := by
  refine ⟨?_, ?_, ?_, ?_⟩
  · intro e
    simp only [VersionEdit.DeleteFile]
    rw [DeletedFileSet.insert_comm]
  · intro e
    simp only [VersionEdit.DeleteP2File]
    rw [DeletedFileSet.insert_comm]
  · intro e
    rfl
  · intro ops
    have hw := wellFormed_runOps ops _ wellFormed_new
    obtain ⟨_, _, _, _, _, _, h7, h8, _, _⟩ := hw
    constructor
    · refine List.Pairwise.imp (fun h => (pairLess_iff _ _).mp h) ?_
      exact DeletedFileSet.insert_ascending _ _ (DeletedFileSet.insert_ascending _ _ h7)
    · refine List.Pairwise.imp (fun h => (pairLess_iff _ _).mp h) ?_
      exact DeletedFileSet.insert_ascending _ _ (DeletedFileSet.insert_ascending _ _ h8)

/-! ### Truncated records -/

theorem GetFixed64_append {q r : List Nat} {v : Nat} (t : List Nat)
    (h : GetFixed64 q = some (v, r)) : GetFixed64 (q ++ t) = some (v, r ++ t) := by
  match q, h with
  | b0 :: b1 :: b2 :: b3 :: b4 :: b5 :: b6 :: b7 :: rest, h =>
    simp only [GetFixed64, Option.some.injEq, Prod.mk.injEq] at h
    simp only [List.cons_append, GetFixed64, Option.some.injEq, Prod.mk.injEq]
    exact ⟨h.1, by rw [h.2]⟩

theorem GetInt32_append {q r : List Nat} {v : Int} (t : List Nat)
    (h : GetInt32 q = some (v, r)) : GetInt32 (q ++ t) = some (v, r ++ t) := by
  match q, h with
  | b0 :: b1 :: b2 :: b3 :: rest, h =>
    simp only [GetInt32, Option.some.injEq, Prod.mk.injEq] at h
    simp only [List.cons_append, GetInt32, Option.some.injEq, Prod.mk.injEq]
    exact ⟨h.1, by rw [h.2]⟩

theorem GetVarint_append {q r : List Nat} {v : Nat} (t : List Nat)
    (h : GetVarint q = some (v, r)) : GetVarint (q ++ t) = some (v, r ++ t) := by
  induction q generalizing v r with
  | nil => simp [GetVarint] at h
  | cons b rest ih =>
    by_cases hb : b < 128
    · simp only [GetVarint, hb, if_true, Option.some.injEq, Prod.mk.injEq] at h
      obtain ⟨rfl, rfl⟩ := h
      simp [GetVarint, hb]
    · simp only [GetVarint, hb, if_false] at h
      cases hrec : GetVarint rest with
      | none => simp [hrec] at h
      | some p =>
        obtain ⟨w, r2⟩ := p
        simp only [hrec, Option.some.injEq, Prod.mk.injEq] at h
        obtain ⟨rfl, rfl⟩ := h
        simp [GetVarint, hb, ih hrec]

theorem GetLengthPrefixedSlice_append {q r : List Nat} {s : Slice} (t : List Nat)
    (h : GetLengthPrefixedSlice q = some (s, r)) :
    GetLengthPrefixedSlice (q ++ t) = some (s, r ++ t) := by
  unfold GetLengthPrefixedSlice at h ⊢
  cases hv : GetVarint q with
  | none => simp [hv] at h
  | some p =>
    obtain ⟨len, rest⟩ := p
    simp only [hv] at h
    by_cases hl : rest.length < len
    · simp [hl] at h
    · simp only [hl, if_false, Option.some.injEq, Prod.mk.injEq] at h
      have hl2 : ¬ ((rest ++ t).length < len) := by
        simp only [List.length_append]
        omega
      simp only [GetVarint_append t hv, hl2, if_false, Option.some.injEq, Prod.mk.injEq]
      rw [List.take_append_of_le_length (by omega), List.drop_append_of_le_length (by omega)]
      exact ⟨h.1, by rw [h.2]⟩

theorem GetInternalKey_append {q r : List Nat} {k : InternalKey} (t : List Nat)
    (h : GetInternalKey q = some (k, r)) : GetInternalKey (q ++ t) = some (k, r ++ t) := by
  unfold GetInternalKey at h ⊢
  cases hv : GetLengthPrefixedSlice q with
  | none => simp [hv] at h
  | some p =>
    obtain ⟨str, rest⟩ := p
    simp only [hv] at h
    by_cases hl : str.length < kMinInternalKeyLength
    · simp [hl] at h
    · simp only [hl, if_false, Option.some.injEq, Prod.mk.injEq] at h
      simp only [GetLengthPrefixedSlice_append t hv, hl, if_false, Option.some.injEq,
        Prod.mk.injEq]
      exact ⟨h.1, by rw [h.2]⟩

theorem decodeOp_append {b : Nat} {input rest : List Nat} {op : Op} (t : List Nat)
    (h : decodeOp (b :: input) = some (op, rest)) :
    decodeOp (b :: input ++ t) = some (op, rest ++ t) := by
  simp only [List.cons_append, decodeOp] at h ⊢
  by_cases c0 : b = kComparator
  · rw [if_pos c0] at h ⊢
    obtain ⟨⟨a0, r0⟩, h0, h⟩ := Option.bind_eq_some.mp h
    simp only [Option.some.injEq, Prod.mk.injEq] at h
    obtain ⟨rfl, rfl⟩ := h
    simp [GetLengthPrefixedSlice_append t h0]
  · rw [if_neg c0] at h ⊢
    by_cases c1 : b = kLogNumber
    · rw [if_pos c1] at h ⊢
      obtain ⟨⟨a0, r0⟩, h0, h⟩ := Option.bind_eq_some.mp h
      simp only [Option.some.injEq, Prod.mk.injEq] at h
      obtain ⟨rfl, rfl⟩ := h
      simp [GetFixed64_append t h0]
    · rw [if_neg c1] at h ⊢
      by_cases c2 : b = kPrevLogNumber
      · rw [if_pos c2] at h ⊢
        obtain ⟨⟨a0, r0⟩, h0, h⟩ := Option.bind_eq_some.mp h
        simp only [Option.some.injEq, Prod.mk.injEq] at h
        obtain ⟨rfl, rfl⟩ := h
        simp [GetFixed64_append t h0]
      · rw [if_neg c2] at h ⊢
        by_cases c3 : b = kNextFileNumber
        · rw [if_pos c3] at h ⊢
          obtain ⟨⟨a0, r0⟩, h0, h⟩ := Option.bind_eq_some.mp h
          simp only [Option.some.injEq, Prod.mk.injEq] at h
          obtain ⟨rfl, rfl⟩ := h
          simp [GetFixed64_append t h0]
        · rw [if_neg c3] at h ⊢
          by_cases c4 : b = kLastSequence
          · rw [if_pos c4] at h ⊢
            obtain ⟨⟨a0, r0⟩, h0, h⟩ := Option.bind_eq_some.mp h
            simp only [Option.some.injEq, Prod.mk.injEq] at h
            obtain ⟨rfl, rfl⟩ := h
            simp [GetFixed64_append t h0]
          · rw [if_neg c4] at h ⊢
            by_cases c5 : b = kCompactPointer
            · rw [if_pos c5] at h ⊢
              obtain ⟨⟨a0, r0⟩, h0, h⟩ := Option.bind_eq_some.mp h
              obtain ⟨⟨a1, r1⟩, h1, h⟩ := Option.bind_eq_some.mp h
              simp only [Option.some.injEq, Prod.mk.injEq] at h
              obtain ⟨rfl, rfl⟩ := h
              simp only at h0 h1
              simp [GetInt32_append t h0, GetInternalKey_append t h1]
            · rw [if_neg c5] at h ⊢
              by_cases c6 : b = kDeletedFile
              · rw [if_pos c6] at h ⊢
                obtain ⟨⟨a0, r0⟩, h0, h⟩ := Option.bind_eq_some.mp h
                obtain ⟨⟨a1, r1⟩, h1, h⟩ := Option.bind_eq_some.mp h
                simp only [Option.some.injEq, Prod.mk.injEq] at h
                obtain ⟨rfl, rfl⟩ := h
                simp only at h0 h1
                simp [GetInt32_append t h0, GetFixed64_append t h1]
              · rw [if_neg c6] at h ⊢
                by_cases c7 : b = kDeletedP2File
                · rw [if_pos c7] at h ⊢
                  obtain ⟨⟨a0, r0⟩, h0, h⟩ := Option.bind_eq_some.mp h
                  obtain ⟨⟨a1, r1⟩, h1, h⟩ := Option.bind_eq_some.mp h
                  simp only [Option.some.injEq, Prod.mk.injEq] at h
                  obtain ⟨rfl, rfl⟩ := h
                  simp only at h0 h1
                  simp [GetInt32_append t h0, GetFixed64_append t h1]
                · rw [if_neg c7] at h ⊢
                  by_cases c8 : b = kNewFile
                  · rw [if_pos c8] at h ⊢
                    obtain ⟨⟨a0, r0⟩, h0, h⟩ := Option.bind_eq_some.mp h
                    obtain ⟨⟨a1, r1⟩, h1, h⟩ := Option.bind_eq_some.mp h
                    obtain ⟨⟨a2, r2⟩, h2, h⟩ := Option.bind_eq_some.mp h
                    obtain ⟨⟨a3, r3⟩, h3, h⟩ := Option.bind_eq_some.mp h
                    obtain ⟨⟨a4, r4⟩, h4, h⟩ := Option.bind_eq_some.mp h
                    simp only [Option.some.injEq, Prod.mk.injEq] at h
                    obtain ⟨rfl, rfl⟩ := h
                    simp only at h0 h1 h2 h3 h4
                    simp [GetInt32_append t h0, GetFixed64_append t h1, GetFixed64_append t h2, GetInternalKey_append t h3, GetInternalKey_append t h4]
                  · rw [if_neg c8] at h ⊢
                    by_cases c9 : b = kNewL0File
                    · rw [if_pos c9] at h ⊢
                      obtain ⟨⟨a0, r0⟩, h0, h⟩ := Option.bind_eq_some.mp h
                      obtain ⟨⟨a1, r1⟩, h1, h⟩ := Option.bind_eq_some.mp h
                      obtain ⟨⟨a2, r2⟩, h2, h⟩ := Option.bind_eq_some.mp h
                      obtain ⟨⟨a3, r3⟩, h3, h⟩ := Option.bind_eq_some.mp h
                      obtain ⟨⟨a4, r4⟩, h4, h⟩ := Option.bind_eq_some.mp h
                      simp only [Option.some.injEq, Prod.mk.injEq] at h
                      obtain ⟨rfl, rfl⟩ := h
                      simp only at h0 h1 h2 h3 h4
                      simp [GetInt32_append t h0, GetFixed64_append t h1, GetFixed64_append t h2, GetInternalKey_append t h3, GetInternalKey_append t h4]
                    · rw [if_neg c9] at h ⊢
                      simp at h

theorem GetFixed64_PutFixed64_some (v : Nat) (r : List Nat) :
    ∃ w, GetFixed64 (PutFixed64 v ++ r) = some (w, r) := ⟨_, rfl⟩

theorem GetInt32_PutInt32_some (v : Int) (r : List Nat) :
    ∃ w, GetInt32 (PutInt32 v ++ r) = some (w, r) := ⟨_, rfl⟩

theorem GetInternalKey_Put_short (k : InternalKey) (r : List Nat)
    (hk : ¬ kMinInternalKeyLength ≤ k.rep_.length) :
    GetInternalKey (PutLengthPrefixedSlice k.rep_ ++ r) = none := by
  have hlt : k.rep_.length < kMinInternalKeyLength := by omega
  simp [GetInternalKey, GetLengthPrefixedSlice_Put, hlt]

theorem GetInternalKey_Put_shape (k : InternalKey) (r : List Nat) :
    GetInternalKey (PutLengthPrefixedSlice k.rep_ ++ r) = none
      ∨ GetInternalKey (PutLengthPrefixedSlice k.rep_ ++ r) = some (k, r) := by
  by_cases hk : kMinInternalKeyLength ≤ k.rep_.length
  · exact Or.inr (GetInternalKey_Put k r hk)
  · exact Or.inl (GetInternalKey_Put_short k r hk)

/-- Reading an entry that was written either fails or uses up exactly the
bytes of the entry, whatever the arguments written are. -/
theorem decodeOp_encodeOp_shape (op : Op) (r : List Nat) :
    decodeOp (encodeOp op ++ r) = none
      ∨ ∃ op2, decodeOp (encodeOp op ++ r) = some (op2, r) := by
  cases op with
  | setComparatorName name =>
    exact Or.inr ⟨Op.setComparatorName name, by
      simp [encodeOp, decodeOp, GetLengthPrefixedSlice_Put]⟩
  | setLogNumber num =>
    obtain ⟨w, hw⟩ := GetFixed64_PutFixed64_some num r
    exact Or.inr ⟨Op.setLogNumber w, by simp [encodeOp, decodeOp, kComparator, kLogNumber, hw]⟩
  | setPrevLogNumber num =>
    obtain ⟨w, hw⟩ := GetFixed64_PutFixed64_some num r
    exact Or.inr ⟨Op.setPrevLogNumber w, by
      simp [encodeOp, decodeOp, kComparator, kLogNumber, kPrevLogNumber, hw]⟩
  | setNextFile num =>
    obtain ⟨w, hw⟩ := GetFixed64_PutFixed64_some num r
    exact Or.inr ⟨Op.setNextFile w, by
      simp [encodeOp, decodeOp, kComparator, kLogNumber, kPrevLogNumber, kNextFileNumber, hw]⟩
  | setLastSequence seq =>
    obtain ⟨w, hw⟩ := GetFixed64_PutFixed64_some seq r
    exact Or.inr ⟨Op.setLastSequence w, by
      simp [encodeOp, decodeOp, kComparator, kLogNumber, kPrevLogNumber, kNextFileNumber,
        kLastSequence, hw]⟩
  | setCompactPointer level key =>
    obtain ⟨l, hl⟩ := GetInt32_PutInt32_some level (PutLengthPrefixedSlice key.rep_ ++ r)
    rcases GetInternalKey_Put_shape key r with hk | hk
    · exact Or.inl (by
        simp [encodeOp, decodeOp, kComparator, kLogNumber, kPrevLogNumber, kNextFileNumber,
          kLastSequence, kCompactPointer, List.append_assoc, hl, hk])
    · exact Or.inr ⟨Op.setCompactPointer l key, by
        simp [encodeOp, decodeOp, kComparator, kLogNumber, kPrevLogNumber, kNextFileNumber,
          kLastSequence, kCompactPointer, List.append_assoc, hl, hk]⟩
  | deleteFile par file =>
    obtain ⟨l, hl⟩ := GetInt32_PutInt32_some par (PutFixed64 file ++ r)
    obtain ⟨w, hw⟩ := GetFixed64_PutFixed64_some file r
    exact Or.inr ⟨Op.deleteFile l w, by
      simp [encodeOp, decodeOp, kComparator, kLogNumber, kPrevLogNumber, kNextFileNumber,
        kLastSequence, kCompactPointer, kDeletedFile, List.append_assoc, hl, hw]⟩
  | deleteP2File par file =>
    obtain ⟨l, hl⟩ := GetInt32_PutInt32_some par (PutFixed64 file ++ r)
    obtain ⟨w, hw⟩ := GetFixed64_PutFixed64_some file r
    exact Or.inr ⟨Op.deleteP2File l w, by
      simp [encodeOp, decodeOp, kComparator, kLogNumber, kPrevLogNumber, kNextFileNumber,
        kLastSequence, kCompactPointer, kDeletedFile, kDeletedP2File, List.append_assoc, hl,
        hw]⟩
  | addFile level file file_size smallest largest =>
    obtain ⟨l, hl⟩ := GetInt32_PutInt32_some level
      (PutFixed64 file ++ (PutFixed64 file_size ++ (PutLengthPrefixedSlice smallest.rep_
        ++ (PutLengthPrefixedSlice largest.rep_ ++ r))))
    obtain ⟨w1, hw1⟩ := GetFixed64_PutFixed64_some file
      (PutFixed64 file_size ++ (PutLengthPrefixedSlice smallest.rep_
        ++ (PutLengthPrefixedSlice largest.rep_ ++ r)))
    obtain ⟨w2, hw2⟩ := GetFixed64_PutFixed64_some file_size
      (PutLengthPrefixedSlice smallest.rep_ ++ (PutLengthPrefixedSlice largest.rep_ ++ r))
    rcases GetInternalKey_Put_shape smallest (PutLengthPrefixedSlice largest.rep_ ++ r)
      with hs | hs
    · exact Or.inl (by
        simp [encodeOp, decodeOp, kComparator, kLogNumber, kPrevLogNumber, kNextFileNumber,
          kLastSequence, kCompactPointer, kDeletedFile, kDeletedP2File, kNewFile,
          List.append_assoc, hl, hw1, hw2, hs])
    · rcases GetInternalKey_Put_shape largest r with hg | hg
      · exact Or.inl (by
          simp [encodeOp, decodeOp, kComparator, kLogNumber, kPrevLogNumber, kNextFileNumber,
            kLastSequence, kCompactPointer, kDeletedFile, kDeletedP2File, kNewFile,
            List.append_assoc, hl, hw1, hw2, hs, hg])
      · exact Or.inr ⟨Op.addFile l w1 w2 smallest largest, by
          simp [encodeOp, decodeOp, kComparator, kLogNumber, kPrevLogNumber, kNextFileNumber,
            kLastSequence, kCompactPointer, kDeletedFile, kDeletedP2File, kNewFile,
            List.append_assoc, hl, hw1, hw2, hs, hg]⟩
  | addL0File par file file_size smallest largest =>
    obtain ⟨l, hl⟩ := GetInt32_PutInt32_some par
      (PutFixed64 file ++ (PutFixed64 file_size ++ (PutLengthPrefixedSlice smallest.rep_
        ++ (PutLengthPrefixedSlice largest.rep_ ++ r))))
    obtain ⟨w1, hw1⟩ := GetFixed64_PutFixed64_some file
      (PutFixed64 file_size ++ (PutLengthPrefixedSlice smallest.rep_
        ++ (PutLengthPrefixedSlice largest.rep_ ++ r)))
    obtain ⟨w2, hw2⟩ := GetFixed64_PutFixed64_some file_size
      (PutLengthPrefixedSlice smallest.rep_ ++ (PutLengthPrefixedSlice largest.rep_ ++ r))
    rcases GetInternalKey_Put_shape smallest (PutLengthPrefixedSlice largest.rep_ ++ r)
      with hs | hs
    · exact Or.inl (by
        simp [encodeOp, decodeOp, kComparator, kLogNumber, kPrevLogNumber, kNextFileNumber,
          kLastSequence, kCompactPointer, kDeletedFile, kDeletedP2File, kNewFile, kNewL0File,
          List.append_assoc, hl, hw1, hw2, hs])
    · rcases GetInternalKey_Put_shape largest r with hg | hg
      · exact Or.inl (by
          simp [encodeOp, decodeOp, kComparator, kLogNumber, kPrevLogNumber, kNextFileNumber,
            kLastSequence, kCompactPointer, kDeletedFile, kDeletedP2File, kNewFile, kNewL0File,
            List.append_assoc, hl, hw1, hw2, hs, hg])
      · exact Or.inr ⟨Op.addL0File l w1 w2 smallest largest, by
          simp [encodeOp, decodeOp, kComparator, kLogNumber, kPrevLogNumber, kNextFileNumber,
            kLastSequence, kCompactPointer, kDeletedFile, kDeletedP2File, kNewFile, kNewL0File,
            List.append_assoc, hl, hw1, hw2, hs, hg]⟩

theorem decodeOp_encodeOp_short_key (op : Op) (r : List Nat) (hr : op.InRange)
    (hk : ¬ op.KeysValid) : decodeOp (encodeOp op ++ r) = none := by
  cases op with
  | setComparatorName name => exact absurd trivial hk
  | setLogNumber num => exact absurd trivial hk
  | setPrevLogNumber num => exact absurd trivial hk
  | setNextFile num => exact absurd trivial hk
  | setLastSequence seq => exact absurd trivial hk
  | deleteFile par file => exact absurd trivial hk
  | deleteP2File par file => exact absurd trivial hk
  | setCompactPointer level key =>
    simp only [Op.KeysValid] at hk
    simp [encodeOp, decodeOp, kComparator, kLogNumber, kPrevLogNumber, kNextFileNumber,
      kLastSequence, kCompactPointer, List.append_assoc,
      GetInt32_PutInt32 level _ hr.1 hr.2, GetInternalKey_Put_short key r hk]
  | addFile level file file_size smallest largest =>
    simp only [Op.KeysValid] at hk
    by_cases hs : kMinInternalKeyLength ≤ smallest.rep_.length
    · have hg : ¬ kMinInternalKeyLength ≤ largest.rep_.length := fun h => hk ⟨hs, h⟩
      simp [encodeOp, decodeOp, kComparator, kLogNumber, kPrevLogNumber, kNextFileNumber,
        kLastSequence, kCompactPointer, kDeletedFile, kDeletedP2File, kNewFile,
        List.append_assoc, GetInt32_PutInt32 level _ hr.1.1 hr.1.2,
        GetFixed64_PutFixed64 file _ hr.2.1, GetFixed64_PutFixed64 file_size _ hr.2.2,
        GetInternalKey_Put smallest _ hs, GetInternalKey_Put_short largest r hg]
    · simp [encodeOp, decodeOp, kComparator, kLogNumber, kPrevLogNumber, kNextFileNumber,
        kLastSequence, kCompactPointer, kDeletedFile, kDeletedP2File, kNewFile,
        List.append_assoc, GetInt32_PutInt32 level _ hr.1.1 hr.1.2,
        GetFixed64_PutFixed64 file _ hr.2.1, GetFixed64_PutFixed64 file_size _ hr.2.2,
        GetInternalKey_Put_short smallest _ hs]
  | addL0File par file file_size smallest largest =>
    simp only [Op.KeysValid] at hk
    by_cases hs : kMinInternalKeyLength ≤ smallest.rep_.length
    · have hg : ¬ kMinInternalKeyLength ≤ largest.rep_.length := fun h => hk ⟨hs, h⟩
      simp [encodeOp, decodeOp, kComparator, kLogNumber, kPrevLogNumber, kNextFileNumber,
        kLastSequence, kCompactPointer, kDeletedFile, kDeletedP2File, kNewFile, kNewL0File,
        List.append_assoc, GetInt32_PutInt32 par _ hr.1.1 hr.1.2,
        GetFixed64_PutFixed64 file _ hr.2.1, GetFixed64_PutFixed64 file_size _ hr.2.2,
        GetInternalKey_Put smallest _ hs, GetInternalKey_Put_short largest r hg]
    · simp [encodeOp, decodeOp, kComparator, kLogNumber, kPrevLogNumber, kNextFileNumber,
        kLastSequence, kCompactPointer, kDeletedFile, kDeletedP2File, kNewFile, kNewL0File,
        List.append_assoc, GetInt32_PutInt32 par _ hr.1.1 hr.1.2,
        GetFixed64_PutFixed64 file _ hr.2.1, GetFixed64_PutFixed64 file_size _ hr.2.2,
        GetInternalKey_Put_short smallest _ hs]

/-- An entry cut before its end does not decode, whatever the arguments of the
entry are. -/
theorem decodeOp_proper_prefix (op : Op) (q t : List Nat) (hq : q ++ t = encodeOp op)
    (ht : t ≠ []) : decodeOp q = none := by
  cases q with
  | nil => rfl
  | cons b q =>
    cases hd : decodeOp (b :: q) with
    | none => rfl
    | some x =>
      obtain ⟨op2, r⟩ := x
      have h1 := decodeOp_append t hd
      rw [hq] at h1
      rcases decodeOp_encodeOp_shape op [] with h2 | ⟨op3, h2⟩
      · rw [List.append_nil, h1] at h2
        exact absurd h2 (by simp)
      · rw [List.append_nil, h1] at h2
        simp only [Option.some.injEq, Prod.mk.injEq] at h2
        exact absurd (List.append_eq_nil.mp h2.2).2 ht

theorem decodeLoop_encodeOp_none (op : Op) (t : List Nat) (e : VersionEdit)
    (h : decodeOp (encodeOp op ++ t) = none) :
    decodeLoop (encodeOp op ++ t).length (encodeOp op ++ t) e = none := by
  obtain ⟨b, bs, hb⟩ := encodeOp_eq_cons op
  rw [hb] at h ⊢
  simp only [List.cons_append, List.length_cons, decodeLoop, List.append_eq] at h ⊢
  rw [h]

theorem decodeLoop_encodeOp_some (op op2 : Op) (t : List Nat) (e : VersionEdit)
    (h : decodeOp (encodeOp op ++ t) = some (op2, t)) :
    decodeLoop (encodeOp op ++ t).length (encodeOp op ++ t) e
      = decodeLoop t.length t (op2.apply e) := by
  obtain ⟨b, bs, hb⟩ := encodeOp_eq_cons op
  rw [hb] at h ⊢
  simp only [List.cons_append, List.length_cons, decodeLoop, List.append_eq] at h ⊢
  rw [h]
  exact decodeLoop_bound _ t _ (by simp)

theorem mem_entryBoundaries_cons (op : Op) (ops : List Op) (t : List Nat) :
    encodeOp op ++ t ∈ entryBoundaries (op :: ops) ↔ t ∈ entryBoundaries ops := by
  obtain ⟨b, bs, hb⟩ := encodeOp_eq_cons op
  simp only [entryBoundaries, List.mem_cons, List.mem_map, List.append_cancel_left_eq]
  constructor
  · rintro (h | ⟨a, ha, rfl⟩)
    · rw [hb] at h
      simp at h
    · exact ha
  · intro h
    exact Or.inr ⟨t, h, rfl⟩

theorem decodeLoop_truncated (recs : List Op) (p : List Nat) (hp : p <+: encodeOps recs)
    (e : VersionEdit) :
    (p ∉ entryBoundaries recs → decodeLoop p.length p e = none)
    ∧ (p ∈ entryBoundaries recs →
        ∃ done, done <+: recs ∧ p = encodeOps done
          ∧ ((∀ op ∈ done, op.InRange ∧ op.KeysValid) →
              decodeLoop p.length p e = some (runOps e done))
          ∧ ((∀ op ∈ done, op.InRange) → (¬ ∀ op ∈ done, op.KeysValid) →
              decodeLoop p.length p e = none)) := by
  induction recs generalizing p e with
  | nil =>
    have hp0 : p = [] := by simpa [encodeOps] using hp
    subst hp0
    refine ⟨fun h => absurd (by simp [entryBoundaries]) h,
      fun _ => ⟨[], List.prefix_refl _, rfl, fun _ => rfl, fun _ h => absurd (by simp) h⟩⟩
  | cons op ops ih =>
    have hself : encodeOp op <+: encodeOps (op :: ops) := ⟨encodeOps ops, rfl⟩
    by_cases hfull : encodeOp op <+: p
    · -- the first entry is whole: the cut is in what follows
      obtain ⟨t, rfl⟩ := hfull
      have ht : t <+: encodeOps ops := by
        simpa [encodeOps, List.prefix_append_right_inj] using hp
      rw [mem_entryBoundaries_cons]
      constructor
      · intro hnot
        rcases decodeOp_encodeOp_shape op t with hd | ⟨op2, hd⟩
        · exact decodeLoop_encodeOp_none op t e hd
        · rw [decodeLoop_encodeOp_some op op2 t e hd]
          exact (ih t ht (op2.apply e)).1 hnot
      · intro hm
        obtain ⟨done, hd1, hd2, hd3, hd4⟩ := (ih t ht (op.apply e)).2 hm
        refine ⟨op :: done, ?_, ?_, ?_, ?_⟩
        · obtain ⟨u, rfl⟩ := hd1
          exact ⟨u, rfl⟩
        · rw [hd2]
          rfl
        · intro hv
          have hop := hv op (List.mem_cons_self _ _)
          rw [decodeLoop_encodeOp_some op op t e (decodeOp_encodeOp op t hop.1 hop.2)]
          rw [hd3 (fun o ho => hv o (List.mem_cons_of_mem _ ho))]
          rfl
        · intro hr hk
          have hopr := hr op (List.mem_cons_self _ _)
          by_cases hopk : op.KeysValid
          · rw [decodeLoop_encodeOp_some op op t e (decodeOp_encodeOp op t hopr hopk)]
            refine hd4 (fun o ho => hr o (List.mem_cons_of_mem _ ho)) ?_
            intro hall
            apply hk
            intro o ho
            rcases List.mem_cons.mp ho with rfl | ho
            · exact hopk
            · exact hall o ho
          · exact decodeLoop_encodeOp_none op t e
              (decodeOp_encodeOp_short_key op t hopr hopk)
    · -- the cut is inside the first entry, or before it
      rcases List.prefix_or_prefix_of_prefix hself hp with hcase | hcase
      · exact absurd hcase hfull
      · obtain ⟨t, ht⟩ := hcase
        have ht0 : t ≠ [] := by
          intro h0
          rw [h0, List.append_nil] at ht
          exact hfull (ht ▸ List.prefix_refl _)
        cases p with
        | nil =>
          refine ⟨fun h => absurd (by simp [entryBoundaries]) h,
            fun _ => ⟨[], List.nil_prefix, rfl, fun _ => rfl, fun _ h => absurd (by simp) h⟩⟩
        | cons b q =>
          have hnone := decodeOp_proper_prefix op (b :: q) t ht ht0
          have hloop : decodeLoop (b :: q).length (b :: q) e = none := by
            simp only [List.length_cons, decodeLoop, hnone]
          refine ⟨fun _ => hloop, fun hmem => ?_⟩
          exfalso
          simp only [entryBoundaries, List.mem_cons, List.mem_map] at hmem
          rcases hmem with hmem | ⟨a, _, ha⟩
          · exact List.cons_ne_nil _ _ hmem
          · have hlen := congrArg List.length ha
            have hlen2 := congrArg List.length ht
            simp only [List.length_append] at hlen hlen2
            have : 0 < t.length := List.length_pos.mpr ht0
            omega

/-- C11 (amended): for every edit built by builder calls, with any arguments,
and every prefix `p` of its encoding: when `p` ends inside a `(tag, payload)`
entry, `DecodeFrom(p)` is a decode error; when `p` ends between two complete
entries, `p` is the encoding of the entries before the cut, and `DecodeFrom(p)`
succeeds with the edit made of those entries when their arguments are values
of their C++ types and their internal keys have at least the minimum valid
length, and is a decode error when one of those keys is shorter. -/
theorem DecodeFrom_truncated (ops : List Op) (p : List Nat)
    (hp : p <+: (runOps VersionEdit.new ops).EncodeTo []) :
    (p ∉ entryBoundaries (records (runOps VersionEdit.new ops)) →
        VersionEdit.DecodeFrom p = none)
    ∧ (p ∈ entryBoundaries (records (runOps VersionEdit.new ops)) →
        ∃ done, done <+: records (runOps VersionEdit.new ops) ∧ p = encodeOps done
          ∧ ((∀ op ∈ done, op.InRange ∧ op.KeysValid) →
              VersionEdit.DecodeFrom p = some (runOps VersionEdit.new done))
          ∧ ((∀ op ∈ done, op.InRange) → (¬ ∀ op ∈ done, op.KeysValid) →
              VersionEdit.DecodeFrom p = none)) := by
  simp only [VersionEdit.EncodeTo, List.nil_append] at hp
  exact decodeLoop_truncated _ p hp VersionEdit.new

/-- C11 (witness): the edit built by `SetLogNumber(1)` and
`SetCompactPointer(0, InternalKey())` encodes to 15 bytes, an entry of 9 and an
entry of 6; its first 12 bytes, a cut inside the second entry, are a decode
error. -/
theorem DecodeFrom_truncated_witness :
    [2, 1, 0, 0, 0, 0, 0, 0, 0, 6, 0, 0]
        <+: (runOps VersionEdit.new
              [Op.setLogNumber 1, Op.setCompactPointer 0 InternalKey.default]).EncodeTo []
    ∧ (([2, 1, 0, 0, 0, 0, 0, 0, 0, 6, 0, 0]
          ∉ entryBoundaries (records (runOps VersionEdit.new
              [Op.setLogNumber 1, Op.setCompactPointer 0 InternalKey.default])) →
        VersionEdit.DecodeFrom [2, 1, 0, 0, 0, 0, 0, 0, 0, 6, 0, 0] = none)
      ∧ ([2, 1, 0, 0, 0, 0, 0, 0, 0, 6, 0, 0]
          ∈ entryBoundaries (records (runOps VersionEdit.new
              [Op.setLogNumber 1, Op.setCompactPointer 0 InternalKey.default])) →
        ∃ done,
          done <+: records (runOps VersionEdit.new
              [Op.setLogNumber 1, Op.setCompactPointer 0 InternalKey.default])
          ∧ [2, 1, 0, 0, 0, 0, 0, 0, 0, 6, 0, 0] = encodeOps done
          ∧ ((∀ op ∈ done, op.InRange ∧ op.KeysValid) →
              VersionEdit.DecodeFrom [2, 1, 0, 0, 0, 0, 0, 0, 0, 6, 0, 0]
                = some (runOps VersionEdit.new done))
          ∧ ((∀ op ∈ done, op.InRange) → (¬ ∀ op ∈ done, op.KeysValid) →
              VersionEdit.DecodeFrom [2, 1, 0, 0, 0, 0, 0, 0, 0, 6, 0, 0] = none)))
    ∧ [2, 1, 0, 0, 0, 0, 0, 0, 0, 6, 0, 0]
        ∉ entryBoundaries (records (runOps VersionEdit.new
            [Op.setLogNumber 1, Op.setCompactPointer 0 InternalKey.default]))
    ∧ VersionEdit.DecodeFrom [2, 1, 0, 0, 0, 0, 0, 0, 0, 6, 0, 0] = none :=
  ⟨⟨[0, 0, 0], by decide⟩,
    DecodeFrom_truncated [Op.setLogNumber 1, Op.setCompactPointer 0 InternalKey.default] _
      ⟨[0, 0, 0], by decide⟩,
    by decide, by decide⟩

/-- C11 (counterexample): the edit built by `SetLogNumber(1)` and
`SetNextFile(2)` encodes to 18 bytes, two entries of 9 bytes; the first 9
bytes, a proper prefix that ends between the two entries, decode with success
to an edit that holds the log number and not the next file number. -/
theorem DecodeFrom_truncated_between_entries :
    (((VersionEdit.new.SetLogNumber 1).SetNextFile 2).EncodeTo []).length = 18
    ∧ ((((VersionEdit.new.SetLogNumber 1).SetNextFile 2).EncodeTo []).take 9).length = 9
    ∧ (((VersionEdit.new.SetLogNumber 1).SetNextFile 2).EncodeTo []).take 9
        <+: ((VersionEdit.new.SetLogNumber 1).SetNextFile 2).EncodeTo []
    ∧ VersionEdit.DecodeFrom
          ((((VersionEdit.new.SetLogNumber 1).SetNextFile 2).EncodeTo []).take 9)
        = some (VersionEdit.new.SetLogNumber 1)
    ∧ (VersionEdit.new.SetLogNumber 1).has_next_file_number_ = false
    ∧ ((VersionEdit.new.SetLogNumber 1).SetNextFile 2).has_next_file_number_ = true :=
  ⟨by decide, by decide, List.take_prefix _ _, by decide, rfl, rfl⟩

/-! ### The table handle cache -/

namespace TableCache

theorem lookup_Evict_same (c : TableCache) (n l : Nat) : (c.Evict n).lookup l n = none := by
  simp only [lookup, Evict, Option.map_eq_none', List.find?_eq_none, List.mem_filter,
    Bool.not_eq_true', decide_eq_false_iff_not, decide_eq_true_eq]
  rintro ⟨⟨l2, n2⟩, t⟩ ⟨_, h⟩ heq
  simp only [Prod.mk.injEq] at heq
  exact h heq.2

theorem lookup_Evict_other (c : TableCache) (n l m : Nat) (h : m ≠ n) :
    (c.Evict n).lookup l m = c.lookup l m := by
  obtain ⟨entries, cache, opens⟩ := c
  simp only [lookup, Evict]
  congr 1
  induction cache with
  | nil => rfl
  | cons kv rest ih =>
    obtain ⟨⟨l2, n2⟩, t⟩ := kv
    by_cases hk : (l2, n2) = (l, m)
    · have hn : ¬ n2 = n := by
        simp only [Prod.mk.injEq] at hk
        rw [hk.2]
        exact h
      simp [List.filter, hn, hk]
    · by_cases hn : n2 = n
      · simp only [List.filter, hn, decide_True, Bool.not_true]
        rw [ih]
        have hk2 : ¬ (l2, n) = (l, m) := by rw [← hn]; exact hk
        simp [hk2]
      · simp only [List.filter, hn, decide_False, Bool.not_false]
        simp [hk, ih]

/-- C12: after `Evict(n)` the cache holds no entry keyed `(l, n)`, for every
cache, file number `n` and level `l`; the next `NewIterator` or `Get` for
`(l, n)` performs a file open and its table is the one that open makes, not a
table cached before the eviction; the entries for other file numbers are the
same as before, in the same order. -/
theorem Evict_removes_every_level (c : TableCache) (n : Nat) :
    (∀ l : Nat, (c.Evict n).lookup l n = none)
    ∧ (∀ (l : Nat) (t : Table), ((l, n), t) ∉ (c.Evict n).cache_)
    ∧ (∀ (fileOpens : Nat → Nat → Bool) (l size : Nat),
        (NewIterator fileOpens (c.Evict n) n size l).2.opens = c.opens + 1
        ∧ (NewIterator fileOpens (c.Evict n) n size l).1
            = if fileOpens n size then
                some { file_number := n, file_size := size, serial := c.opens }
              else none)
    ∧ (∀ (fileOpens : Nat → Nat → Bool) (seek : Table → Slice → Option (Slice × Slice))
        (l size : Nat) (k : Slice),
        (Get fileOpens seek (c.Evict n) l n size k).2.opens = c.opens + 1
        ∧ (Get fileOpens seek (c.Evict n) l n size k).1
            = if fileOpens n size then
                some (seek { file_number := n, file_size := size, serial := c.opens } k)
              else none)
    ∧ (∀ l m : Nat, m ≠ n → (c.Evict n).lookup l m = c.lookup l m)
    ∧ (c.Evict n).cache_.filter (fun kv => !decide (kv.1.2 = n))
        = c.cache_.filter (fun kv => !decide (kv.1.2 = n))
    ∧ (∀ kv : (Nat × Nat) × Table, kv.1.2 ≠ n → (kv ∈ (c.Evict n).cache_ ↔ kv ∈ c.cache_))
    ∧ (c.Evict n).entries = c.entries := by
  refine ⟨lookup_Evict_same c n, ?_, ?_, ?_, fun l m h => lookup_Evict_other c n l m h, ?_, ?_,
    rfl⟩
  · intro l t h
    simp [Evict, List.mem_filter] at h
  · intro fileOpens l size
    have hl := lookup_Evict_same c n l
    by_cases ho : fileOpens n size = true
    · simp only [NewIterator, FindTable, hl, ho, if_true]
      exact ⟨rfl, rfl⟩
    · simp only [NewIterator, FindTable, hl, ho, if_false]
      exact ⟨rfl, by simp⟩
  · intro fileOpens seek l size k
    have hl := lookup_Evict_same c n l
    by_cases ho : fileOpens n size = true
    · simp only [Get, FindTable, hl, ho, if_true]
      exact ⟨rfl, rfl⟩
    · simp only [Get, FindTable, hl, ho, if_false]
      exact ⟨rfl, by simp⟩
  · simp [Evict, List.filter_filter]
  · intro kv hkv
    simp [Evict, List.mem_filter, hkv]

end TableCache

end leveldb
